import Mathlib

/-!
# Verification of the grevm transaction-dependency partitioner and scheduler loop

Shallow embedding of `crates/grevm/src/tx_dependency.rs`, the round loop of
`crates/grevm/src/scheduler.rs`, and the constant in `crates/grevm/src/lib.rs`.

Conventions:
* `TxId` (Rust `usize`) is `Nat`.
* Rust `Vec<T>` is `List T`; indexing panics are modelled by returning
  `Option` from the enclosing function (a `none` result corresponds to a
  Rust panic in debug mode: index out of bounds or `usize` underflow).
* `BTreeSet<TxId>` values are kept as strictly sorted `List Nat`
  (`sinsert` is `BTreeSet::insert`, iteration order is ascending).
* `BTreeMap<usize, Vec<..>>` (`weighted_group`) is an association list with
  strictly ascending keys (`wgInsert` is `entry(..).or_default().push(..)`).
* `BinaryHeap<Reverse<(usize, usize)>>` is a list kept sorted by the
  lexicographic order on `(weight, index)`; `heapPush` inserts in order and
  popping takes the head, which is exactly the element Rust's heap returns
  (the maximum under `Reverse`, i.e. the lexicographically least pair, which
  is unique because partition indices are distinct).
* the breadth-first flood's `while let Some(..) = queue.pop_front()` loop is
  written with an explicit fuel argument (`bfs`); the call site passes fuel
  `len + 1`, which is proved sufficient (`bfs_spec` only assumes
  `queue.length + count of set flags ≤ fuel`, and the measure shrinks by one
  per pop).
-/

/-- `LocationAndType` from `lib.rs` (addresses and slots abstracted to `Nat`;
only equality of locations matters to the dependency analysis). -/
inductive LocationAndType where
  | basic (addr : Nat)
  | storage (addr : Nat) (slot : Nat)
  | code (addr : Nat)
deriving DecidableEq, Repr

/-- One entry of `ParallelExecutionHints::txs_hint`: the hinted read and write
location sets of one transaction. -/
structure TxHint where
  read_set : List LocationAndType
  write_set : List LocationAndType
deriving DecidableEq, Repr

/-- `ParallelExecutionHints` (indexed by `TxId`). -/
abbrev ParallelExecutionHints := List TxHint

/-- `RAW_TRANSFER_WEIGHT` from `tx_dependency.rs`. -/
def RAW_TRANSFER_WEIGHT : Nat := 1

/-- The `write_set` map of `generate_tx_dependency`, queried at one location:
the ascending list of all TxIds whose hinted write set contains `L`
(`DashMap<LocationAndType, BTreeSet<TxId>>`, built over all positions). -/
def writersOf (hints : ParallelExecutionHints) (L : LocationAndType) : List Nat :=
  (List.range hints.length).filter (fun p => decide (L ∈ (hints.getD p ⟨[], []⟩).write_set))

/-- `ws.range(..pos).next_back()` on a `BTreeSet` kept as an ascending list:
the greatest element strictly below `pos`, if any. -/
def rangeNextBack (ws : List Nat) (pos : Nat) : Option Nat :=
  (ws.filter (fun t => decide (t < pos))).getLast?

/-- The dependency list `dep_txs` that `generate_tx_dependency` produces for
position `pos`: one entry per hinted read location that has an earlier hinted
writer (the greatest such writer). -/
def depsOf (hints : ParallelExecutionHints) (pos : Nat) : List Nat :=
  (hints.getD pos ⟨[], []⟩).read_set.filterMap
    (fun L => rangeNextBack (writersOf hints L) pos)

/-- `TxDependency::generate_tx_dependency`: the dependency vector together with
the `all_independent` flag (the `AtomicBool` is stored `false` exactly when
some `ws.range(..pos).next_back()` query returns a previous writer). -/
def generate_tx_dependency (hints : ParallelExecutionHints) :
    List (List Nat) × Bool :=
  ((List.range hints.length).map (depsOf hints),
   ! (List.range hints.length).any (fun pos =>
       (hints.getD pos ⟨[], []⟩).read_set.any
         (fun L => (rangeNextBack (writersOf hints L) pos).isSome)))

/-- The `TxDependency` struct from `tx_dependency.rs`. -/
structure TxDependency where
  tx_dependency : List (List Nat)
  num_finality_txs : Nat
  tx_running_time : Option (List Nat)
  tx_weight : Option (List Nat)
  all_independent : Bool
deriving DecidableEq, Repr

/-- `TxDependency::new`. -/
def TxDependency.new (hints : ParallelExecutionHints) : TxDependency :=
  let g := generate_tx_dependency hints
  ⟨g.1, 0, none, none, g.2⟩

/-- `TxDependency::update_tx_dependency`.  The Rust function panics
(`"Different transaction number"`) when the total transaction count changes;
the panic is modelled as `none`.  On success the stored graph and finality
count are replaced and every other field is kept. -/
def TxDependency.update_tx_dependency (s : TxDependency)
    (tx_dependency : List (List Nat)) (num_finality_txs : Nat) :
    Option TxDependency :=
  if s.tx_dependency.length + s.num_finality_txs ≠
      tx_dependency.length + num_finality_txs then
    none
  else
    some { s with tx_dependency := tx_dependency,
                  num_finality_txs := num_finality_txs }

/-- `TxDependency::all_independent_partitions` (the fast path of
`fetch_best_partitions`).  When the tail is empty (or `partition_count = 0`),
Rust evaluates `num_txs % 0`, which panics: modelled as `none`. -/
def TxDependency.all_independent_partitions (s : TxDependency)
    (partition_count : Nat) : Option (List (List Nat)) :=
  let num_txs := s.tx_dependency.length
  let num_partitions := min partition_count num_txs
  if num_partitions = 0 then none
  else
    let remaining := num_txs % num_partitions
    let chunk_size := num_txs / num_partitions
    some ((List.range num_partitions).map (fun index =>
      let start_tx := chunk_size * index + min index remaining + s.num_finality_txs
      List.range' start_tx (chunk_size + if index < remaining then 1 else 0)))

/-! ## General path of `fetch_best_partitions` -/

/-- State of the first scan of `fetch_best_partitions` (lines 126-150): the
singleton groups pushed under weight `RAW_TRANSFER_WEIGHT`, the reverse
adjacency `revert_dependency`, the `is_related` flags and `num_group`. -/
structure ScanResult where
  singles : List (List Nat)
  revert : List (List Nat)
  rel : List Bool
  num_group : Nat
deriving DecidableEq, Repr

/-- One iteration of the descending scan, at tail index `index`
(`txj = index + num_finality_txs`).  Rust subtracts `num_finality_txs` from
each recorded dependency and indexes `revert_dependency`/`is_related` with the
result; an out-of-range dependency therefore panics and is modelled as
`none`. -/
def scanDepStep (nft len txj : Nat) (acc : Option ScanResult) (txi : Nat) :
    Option ScanResult :=
  acc.bind (fun st =>
    if txi < nft ∨ nft + len ≤ txi then none
    else
      let ti := txi - nft
      some { st with
               revert := st.revert.set ti (st.revert.getD ti [] ++ [txj]),
               rel := st.rel.set ti true })

def scanStep (deps : List (List Nat)) (nft len index : Nat)
    (st : ScanResult) : Option ScanResult :=
  let txj := index + nft
  let txj_dep := deps.getD index []
  if txj_dep.isEmpty then
    if st.rel.getD index false then some st
    else some { st with singles := st.singles ++ [[txj]],
                        num_group := st.num_group + 1 }
  else
    let st := { st with rel := st.rel.set index true }
    txj_dep.foldl (scanDepStep nft len txj) (some st)

/-- The scan loop, processing tail indices `k-1, k-2, …, 0` (the Rust loop
runs `index` over `(0..len).rev()`). -/
def scanFrom (deps : List (List Nat)) (nft len : Nat) :
    Nat → ScanResult → Option ScanResult
  | 0, st => some st
  | k + 1, st => (scanStep deps nft len k st).bind (scanFrom deps nft len k)

/-- The full scan from the initial state. -/
def scanPhase (deps : List (List Nat)) (nft : Nat) : Option ScanResult :=
  scanFrom deps nft deps.length deps.length
    ⟨[], List.replicate deps.length [], List.replicate deps.length false, 0⟩

/-- The inner neighbour loop of the breadth-first flood (lines 166-176): push
each neighbour whose `is_related` flag is set and clear its flag. -/
def pushNeighbors (nft : Nat) (nbrs : List Nat) (q : List Nat)
    (rel : List Bool) : List Nat × List Bool :=
  match nbrs with
  | [] => (q, rel)
  | txk :: rest =>
    let ni := txk - nft
    if rel.getD ni false then
      pushNeighbors nft rest (q ++ [ni]) (rel.set ni false)
    else pushNeighbors nft rest q rel

/-- The `while let Some(top_index) = breadth_queue.pop_front()` loop of the
flood, with explicit fuel.  Per pop it appends `top_index + num_finality_txs`
to the group and adds `tx_weight[index]` — the weight of the *flood's starting
index* `index`, exactly as the source does — to the accumulated weight
(`w` below is that fixed per-flood weight). -/
def bfs (deps revert : List (List Nat)) (nft w : Nat) :
    Nat → List Nat → List Bool → List Nat → Nat → List Nat × List Bool × Nat
  | 0, _, rel, group, weight => (group, rel, weight)
  | _ + 1, [], rel, group, weight => (group, rel, weight)
  | fuel + 1, top :: rest, rel, group, weight =>
    let nbrs := deps.getD top [] ++ revert.getD top []
    let qr := pushNeighbors nft nbrs rest rel
    bfs deps revert nft w fuel qr.1 qr.2 (group ++ [top + nft]) (weight + w)

/-- `weighted_group` (`BTreeMap<usize, Vec<DependentTxsVec>>`) as an
association list with strictly ascending keys. -/
abbrev WeightedGroup := List (Nat × List (List Nat))

/-- `weighted_group.entry(w).or_default().push(g)`. -/
def wgInsert (w : Nat) (g : List Nat) : WeightedGroup → WeightedGroup
  | [] => [(w, [g])]
  | (k, gs) :: rest =>
    if w < k then (w, [g]) :: (k, gs) :: rest
    else if w = k then (k, gs ++ [g]) :: rest
    else (k, gs) :: wgInsert w g rest

/-- The flood loop of `fetch_best_partitions` (lines 154-187), processing tail
indices `k-1, …, 0`: each still-related index starts a breadth-first flood
whose group is inserted into `weighted_group` under its accumulated weight. -/
def floodFrom (deps revert : List (List Nat)) (tw : List Nat) (nft len : Nat) :
    Nat → List Bool → WeightedGroup → Nat → WeightedGroup × Nat
  | 0, _, wg, ng => (wg, ng)
  | k + 1, rel, wg, ng =>
    if rel.getD k false then
      let r := bfs deps revert nft (tw.getD k 0) (len + 1) [k] (rel.set k false) [] 0
      floodFrom deps revert tw nft len k r.2.1 (wgInsert r.2.2 r.1 wg) (ng + 1)
    else floodFrom deps revert tw nft len k rel wg ng

/-- Scan plus flood: the grouped tail of a `TxDependency` state, as the final
`weighted_group` map together with `num_group`.  `tx_weight` defaults to
`RAW_TRANSFER_WEIGHT` per transaction as in the source. -/
def TxDependency.weightedGroups (s : TxDependency) :
    Option (WeightedGroup × Nat) :=
  let len := s.tx_dependency.length
  let tw := s.tx_weight.getD (List.replicate len RAW_TRANSFER_WEIGHT)
  (scanPhase s.tx_dependency s.num_finality_txs).map (fun sc =>
    let wg0 : WeightedGroup :=
      if sc.singles.isEmpty then [] else [(RAW_TRANSFER_WEIGHT, sc.singles)]
    floodFrom s.tx_dependency sc.revert tw s.num_finality_txs len len
      sc.rel wg0 sc.num_group)

/-- `BTreeSet<TxId>::insert` on a strictly ascending list. -/
def sinsert (x : Nat) : List Nat → List Nat
  | [] => [x]
  | y :: ys =>
    if x < y then x :: y :: ys
    else if x = y then y :: ys
    else y :: sinsert x ys

/-- `partition.extend(group)` on a `BTreeSet` partition. -/
def sinsertAll (g : List Nat) (p : List Nat) : List Nat :=
  g.foldl (fun acc t => sinsert t acc) p

/-- Modelled from the spec: `fork_join_util(n, Some(parts), ..)` is not under
`src/`; per the spec's bulk distribution of singleton groups it hands each
partition one contiguous balanced chunk of the index range `0..n` (chunk `i`
has size `n / parts`, the first `n % parts` chunks one element more), the same
splitting the source itself uses in `all_independent_partitions`.
`chunkStart n parts i` is the start of chunk `i`. -/
def chunkStart (n parts i : Nat) : Nat := n / parts * i + min i (n % parts)

/-- Size of chunk `i` of `0..n` split into `parts` chunks. -/
def chunkSize (n parts i : Nat) : Nat :=
  n / parts + if i < n % parts then 1 else 0

/-- The bulk distribution of the weight-`RAW_TRANSFER_WEIGHT` groups (lines
201-210): partition `index` receives every TxId of the groups in its chunk,
inserted into its `BTreeSet`. -/
def distributeSingles (groups : List (List Nat)) (np : Nat) :
    List (List Nat) :=
  (List.range np).map (fun i =>
    (((groups.drop (chunkStart groups.length np i)).take
        (chunkSize groups.length np i)).foldl
      (fun p g => sinsertAll g p) []))

/-- `partition_weight.push(Reverse((w, i)))`: ordered insert into the heap
kept as a list sorted by the lexicographic order on `(weight, index)`. -/
def heapPush (x : Nat × Nat) : List (Nat × Nat) → List (Nat × Nat)
  | [] => [x]
  | y :: ys =>
    if x.1 < y.1 ∨ (x.1 = y.1 ∧ x.2 ≤ y.2) then x :: y :: ys
    else y :: heapPush x ys

/-- One `if let Some(Reverse((weight, index))) = partition_weight.pop()` step
(lines 222-226): pop the lightest partition, extend it with the group, push it
back with the group's weight added. -/
def distStep (add_weight : Nat) (st : List (List Nat) × List (Nat × Nat))
    (g : List Nat) : List (List Nat) × List (Nat × Nat) :=
  match st.2 with
  | [] => st
  | (weight, index) :: hrest =>
    (st.1.set index (sinsertAll g (st.1.getD index [])),
     heapPush (weight + add_weight, index) hrest)

/-- The distribution stage (lines 193-228) for a given `weighted_group` and
partition count: bulk-distribute the weight-`RAW_TRANSFER_WEIGHT` bucket,
initialise the heap with the resulting partition weights, then insert the
remaining buckets in descending key order, min-weight partition first.
Returns the partitions together with the final heap. -/
def distributeCore (wg : WeightedGroup) (np : Nat) :
    List (List Nat) × List (Nat × Nat) :=
  let singlesB :=
    ((wg.find? (fun b => b.1 == RAW_TRANSFER_WEIGHT)).map Prod.snd).getD []
  let rest := wg.filter (fun b => b.1 != RAW_TRANSFER_WEIGHT)
  let parts0 := distributeSingles singlesB np
  let heap0 := (List.range np).foldl
    (fun h i => heapPush ((parts0.getD i []).length * RAW_TRANSFER_WEIGHT, i) h) []
  rest.reverse.foldl
    (fun st b => b.2.foldl (fun st g => distStep b.1 st g) st)
    (parts0, heap0)

/-- `TxDependency::fetch_best_partitions`.  `none` models a Rust panic (the
fast path's division by zero on an empty tail, the underflow of
`num_finality_txs + len - 1`, or an out-of-range stored dependency). -/
def TxDependency.fetch_best_partitions (s : TxDependency)
    (partition_count : Nat) : Option (List (List Nat)) :=
  if s.all_independent then s.all_independent_partitions partition_count
  else if s.num_finality_txs + s.tx_dependency.length = 0 then none
  else
    s.weightedGroups.map (fun wgng =>
      let np := min partition_count wgng.2
      if np = 0 then [[]]
      else (distributeCore wgng.1 np).1.filter (fun p => ! p.isEmpty))

/-! ## Scheduler round loop (`scheduler.rs` / `lib.rs`) -/

/-- `MAX_NUM_ROUND` from `lib.rs`. -/
def MAX_NUM_ROUND : Nat := 3

/-- Modelled from the spec: `execute_remaining_sequential` is an empty stub in
`scheduler.rs`; the spec (§4.5.6, §9 open questions) completes it as executing
the residual tail sequentially, after which every transaction of the batch is
finalized. -/
def execute_remaining_sequential (num_txs : Nat) (_num_finality_txs : Nat) :
    Nat :=
  num_txs

/-- `GrevmScheduler::parallel_execute` (lines 100-113 of `scheduler.rs`).
`round_execute`'s only effect on the loop is
`num_finality_txs += validate_transactions()`; since `validate_transactions`
is a stub (`todo!()`), the number of transactions it finalizes in round `i` is
abstracted as the oracle value `deltas[i]`.  The result is the final
`num_finality_txs` together with the list of loop iterations that actually
issued a speculative round (`round_execute` calls); `partition_transactions`
is a stub with no effect on either. -/
def parallel_execute (num_txs : Nat) (deltas : List Nat)
    (num_finality_txs : Nat) : Nat × List Nat :=
  let st := (List.range MAX_NUM_ROUND).foldl
    (fun (st : Nat × List Nat) i =>
      if st.1 < num_txs then (st.1 + deltas.getD i 0, st.2 ++ [i]) else st)
    (num_finality_txs, [])
  if st.1 < num_txs then (execute_remaining_sequential num_txs st.1, st.2)
  else st

/-- `num_finality_txs` at the start of loop iteration `i` of
`parallel_execute`. -/
def nftAt (num_txs : Nat) (deltas : List Nat) (nft0 : Nat) : Nat → Nat
  | 0 => nft0
  | i + 1 =>
    let prev := nftAt num_txs deltas nft0 i
    if prev < num_txs then prev + deltas.getD i 0 else prev

/-- Specification-side description of the min-weight-first insertion policy
(spec §4.3.2c): jobs — groups paired with their tagged weight, in processing
order — are assigned one at a time; each is added to a partition whose
accumulated weight is minimal among all `np` partitions at that moment, and
that partition's weight grows by the job's weight. -/
inductive MinFirstSpec (np : Nat) :
    List Nat → List (List Nat) → List (Nat × List Nat) → List (List Nat) → Prop
  | nil (ws : List Nat) (parts : List (List Nat)) : MinFirstSpec np ws parts [] parts
  | step (ws : List Nat) (parts : List (List Nat)) (w : Nat) (g : List Nat)
      (rest : List (Nat × List Nat)) (final : List (List Nat)) (i : Nat)
      (hi : i < np)
      (hmin : ∀ j, j < np → ws.getD i 0 ≤ ws.getD j 0)
      (next : MinFirstSpec np (ws.set i (ws.getD i 0 + w))
        (parts.set i (sinsertAll g (parts.getD i []))) rest final) :
      MinFirstSpec np ws parts ((w, g) :: rest) final

/-! ## Lemmas about the scheduler round loop -/

theorem pe_fold (n : Nat) (ds : List Nat) (nft0 : Nat) (m : Nat) :
    (List.range m).foldl
      (fun (st : Nat × List Nat) i =>
        if st.1 < n then (st.1 + ds.getD i 0, st.2 ++ [i]) else st)
      (nft0, []) =
    (nftAt n ds nft0 m,
     (List.range m).filter (fun i => decide (nftAt n ds nft0 i < n))) := by
  induction m with
  | zero => simp [nftAt]
  | succ m ih =>
      rw [List.range_succ, List.foldl_append, List.filter_append, ih]
      by_cases h : nftAt n ds nft0 m < n
      · simp [nftAt, h]
      · simp [nftAt, h]

theorem parallel_execute_snd (n : Nat) (ds : List Nat) (nft0 : Nat) :
    (parallel_execute n ds nft0).2 =
      (List.range MAX_NUM_ROUND).filter
        (fun i => decide (nftAt n ds nft0 i < n)) := by
  unfold parallel_execute
  rw [pe_fold]
  show (if _ < n then _ else _ : Nat × List Nat).2 = _
  split <;> rfl

theorem nftAt_le (n : Nat) (ds : List Nat) (nft0 : Nat) (h0 : nft0 ≤ n)
    (m : Nat) (hd : ∀ i, i < m → nftAt n ds nft0 i + ds.getD i 0 ≤ n) :
    nftAt n ds nft0 m ≤ n := by
  induction m with
  | zero => exact h0
  | succ m ih =>
      have ih' := ih (fun i hi => hd i (Nat.lt_succ_of_lt hi))
      show (if nftAt n ds nft0 m < n then _ else _) ≤ n
      split
      · exact hd m (Nat.lt_succ_self m)
      · exact ih'

/-- C7 (counterexample): with 1 transaction and an oracle that finalizes
nothing, round 0 makes no progress and is not the last permitted iteration,
yet the loop still issues rounds 1 and 2 — it does not stop or fall through
early.  The claim's predicted behaviour (no further speculative rounds) is
false. -/
theorem c7_zero_progress_rounds_continue :
    nftAt 1 [0, 0, 0] 0 1 = nftAt 1 [0, 0, 0] 0 0 ∧
    0 + 1 < MAX_NUM_ROUND ∧
    (parallel_execute 1 [0, 0, 0] 0).2 = [0, 1, 2] ∧
    1 ∈ (parallel_execute 1 [0, 0, 0] 0).2 := by decide

/-- C7 (amended): the loop never breaks on zero progress; a speculative round
is issued at exactly those iterations `i < MAX_NUM_ROUND` at which
transactions remain non-finalized, regardless of whether the previous round
made progress.  Sequential fallback is reached only after all
`MAX_NUM_ROUND` iterations. -/
theorem parallel_execute_rounds_characterization (n : Nat) (ds : List Nat)
    (nft0 : Nat) :
    (parallel_execute n ds nft0).2 =
      (List.range MAX_NUM_ROUND).filter
        (fun i => decide (nftAt n ds nft0 i < n)) :=
  parallel_execute_snd n ds nft0

/-- C8: `parallel_execute` issues at most `MAX_NUM_ROUND = 3` speculative
rounds, skips an iteration's round when all transactions are already
finalized, and after the rounds (with the sequential fallback, modelled from
the spec since the source stub is empty) every transaction is finalized.
The oracle hypothesis says a round never finalizes more transactions than
remain, which is what `validate_transactions` returns. -/
theorem parallel_execute_termination (n : Nat) (ds : List Nat) (nft0 : Nat)
    (h0 : nft0 ≤ n)
    (hd : ∀ i, i < MAX_NUM_ROUND → nftAt n ds nft0 i + ds.getD i 0 ≤ n) :
    MAX_NUM_ROUND = 3 ∧
    (parallel_execute n ds nft0).2.length ≤ MAX_NUM_ROUND ∧
    (∀ i, i < MAX_NUM_ROUND → ¬ nftAt n ds nft0 i < n →
      i ∉ (parallel_execute n ds nft0).2) ∧
    (parallel_execute n ds nft0).1 = n := by
  refine ⟨rfl, ?_, ?_, ?_⟩
  · rw [parallel_execute_snd]
    calc ((List.range MAX_NUM_ROUND).filter _).length
        ≤ (List.range MAX_NUM_ROUND).length := List.length_filter_le _ _
      _ = MAX_NUM_ROUND := List.length_range _
  · intro i _ hni
    rw [parallel_execute_snd]
    simp only [List.mem_filter, decide_eq_true_eq]
    rintro ⟨-, h⟩
    exact hni h
  · have hle : nftAt n ds nft0 MAX_NUM_ROUND ≤ n := nftAt_le n ds nft0 h0 _ hd
    unfold parallel_execute
    rw [pe_fold]
    show (if _ < n then _ else _ : Nat × List Nat).1 = n
    split
    · rfl
    · next h => exact Nat.le_antisymm hle (Nat.le_of_not_lt h)

/-- C8 (witness): 2 transactions, rounds finalize 1, 0, 1. -/
theorem parallel_execute_termination_witness :
    MAX_NUM_ROUND = 3 ∧
    (parallel_execute 2 [1, 0, 1] 0).2.length ≤ MAX_NUM_ROUND ∧
    (∀ i, i < MAX_NUM_ROUND → ¬ nftAt 2 [1, 0, 1] 0 i < 2 →
      i ∉ (parallel_execute 2 [1, 0, 1] 0).2) ∧
    (parallel_execute 2 [1, 0, 1] 0).1 = 2 :=
  parallel_execute_termination 2 [1, 0, 1] 0 (by decide) (by decide)

/-- C9: `update_tx_dependency` fails exactly when the new
`tail length + num_finality_txs` differs from the stored total, and on success
it replaces exactly the dependency graph and the finality count, keeping every
other field. -/
theorem update_tx_dependency_spec (s : TxDependency) (d : List (List Nat))
    (nft : Nat) :
    (s.update_tx_dependency d nft = none ↔
      s.tx_dependency.length + s.num_finality_txs ≠ d.length + nft) ∧
    (∀ s', s.update_tx_dependency d nft = some s' →
      s'.tx_dependency = d ∧ s'.num_finality_txs = nft ∧
      s'.tx_running_time = s.tx_running_time ∧
      s'.tx_weight = s.tx_weight ∧
      s'.all_independent = s.all_independent) := by
  constructor
  · unfold TxDependency.update_tx_dependency
    split
    · next h => simp [h]
    · next h => simp [h]
  · intro s' hs'
    unfold TxDependency.update_tx_dependency at hs'
    split at hs'
    · exact absurd hs' (by simp)
    · cases hs'
      exact ⟨rfl, rfl, rfl, rfl, rfl⟩

/-- C9 (witness): a failing and a succeeding update at concrete inputs. -/
theorem update_tx_dependency_spec_witness :
    (TxDependency.update_tx_dependency ⟨[[]], 0, none, some [2], true⟩ [] 1 =
        none ↔ 1 + 0 ≠ 0 + 1) ∧
    (({ tx_dependency := [], num_finality_txs := 1, tx_running_time := none,
        tx_weight := some [2], all_independent := true } : TxDependency).tx_dependency
        = [] ∧
      (1 : Nat) = 1 ∧ (none : Option (List Nat)) = none ∧
      some [2] = some [2] ∧ true = true) :=
  ⟨(update_tx_dependency_spec ⟨[[]], 0, none, some [2], true⟩ [] 1).1,
   (update_tx_dependency_spec ⟨[[]], 0, none, some [2], true⟩ [] 1).2
     ⟨[], 1, none, some [2], true⟩ (by decide)⟩

/-! ## Evaluations exhibiting divergences between spec and code -/

/-- C3 (code bug): starting from hints with no dependencies,
`update_tx_dependency` installs the edge `1 → 0` but leaves the stale
`all_independent` flag set, so the next `fetch_best_partitions` takes the
fast path and splits the edge across two partitions: tx 1 and its dependency
tx 0 land in different returned partitions although tx 0 is not finalized
(`num_finality_txs = 0`). -/
theorem update_stale_flag_splits_edge :
    (TxDependency.new [⟨[], []⟩, ⟨[], []⟩]).update_tx_dependency [[], [0]] 0 =
      some ⟨[[], [0]], 0, none, none, true⟩ ∧
    (0 : Nat) ∈ (⟨[[], [0]], 0, none, none, true⟩ :
      TxDependency).tx_dependency.getD 1 [] ∧
    ¬ (0 : Nat) < (⟨[[], [0]], 0, none, none, true⟩ :
      TxDependency).num_finality_txs ∧
    TxDependency.fetch_best_partitions ⟨[[], [0]], 0, none, none, true⟩ 2 =
      some [[0], [1]] ∧
    ([[0], [1]] : List (List Nat)).all
      (fun p => ! ((1 ∈ p : Bool) && (0 ∈ p : Bool))) = true := by
  refine ⟨by decide, by decide, by decide, by decide, by decide⟩

/-- C4 (code bug): with per-transaction weights `tx_weight = [1, 5]` and the
single dependency `1 → 0`, the flood does group the tail into its one
connected component `{1, 0}`, but tags it with weight
`2 * tx_weight[1] = 10` — the member count times the weight of the flood's
*starting* index (`weight += tx_weight[index]` instead of
`tx_weight[top_index]`) — not the member sum `tx_weight[1] + tx_weight[0] =
6`. -/
theorem flood_weight_not_member_sum :
    TxDependency.weightedGroups ⟨[[], [0]], 0, none, some [1, 5], false⟩ =
      some ([(10, [[1, 0]])], 1) ∧
    List.getD [1, 5] 1 0 + List.getD [1, 5] 0 0 = 6 ∧ (10 : Nat) ≠ 6 := by
  refine ⟨by decide, by decide, by decide⟩

/-- C6 (counterexample): after `update_tx_dependency` installs the edge
`1 → 0`, the current graph is not edge-free, yet `fetch_best_partitions`
still takes the all-independent fast path (the flag is computed only at
construction), returning exactly the fast path's contiguous chunks. -/
theorem fast_path_despite_edge :
    (TxDependency.new [⟨[], []⟩, ⟨[], []⟩]).update_tx_dependency [[], [0]] 0 =
      some ⟨[[], [0]], 0, none, none, true⟩ ∧
    (⟨[[], [0]], 0, none, none, true⟩ : TxDependency).tx_dependency.getD 1 []
      ≠ [] ∧
    TxDependency.fetch_best_partitions ⟨[[], [0]], 0, none, none, true⟩ 2 =
      TxDependency.all_independent_partitions ⟨[[], [0]], 0, none, none, true⟩
        2 := by
  refine ⟨by decide, by decide, by decide⟩

/-- C10 (counterexample): a state with an empty non-finalized tail is
reachable (finalize both transactions, then update), and on it the general
path of `fetch_best_partitions` returns `[[]]` — a list containing one empty
partition, not the empty list of partitions. -/
theorem empty_tail_returns_empty_partition :
    (TxDependency.new [⟨[], [.basic 0]⟩, ⟨[.basic 0], []⟩]).update_tx_dependency
        [] 2 = some ⟨[], 2, none, none, false⟩ ∧
    TxDependency.fetch_best_partitions ⟨[], 2, none, none, false⟩ 4 =
      some [[]] ∧
    ([] : List Nat) ∈ [([] : List Nat)] ∧ ([] : List Nat).isEmpty = true := by
  refine ⟨by decide, by decide, by decide, by decide⟩

/-! ## The dependency graph built from hints (C2) -/

theorem getLast?_filter_range (n : Nat) (q : Nat → Bool) (t : Nat) :
    ((List.range n).filter q).getLast? = some t ↔
      t < n ∧ q t = true ∧ ∀ u, t < u → u < n → q u = false := by
  induction n with
  | zero => simp
  | succ n ih =>
    rw [List.range_succ, List.filter_append]
    by_cases hq : q n = true
    · rw [show List.filter q [n] = [n] by simp [hq], List.getLast?_concat]
      constructor
      · intro h
        have ht : n = t := Option.some.inj h
        subst ht
        exact ⟨Nat.lt_succ_self n, hq, fun u hu hun => by omega⟩
      · rintro ⟨ht, hqt, hall⟩
        have htn : t = n := by
          by_contra hne
          have h2 : t < n := by omega
          have h3 := hall n h2 (Nat.lt_succ_self n)
          simp [hq] at h3
        rw [htn]
    · have hqn : q n = false := by
        simpa [Bool.not_eq_true] using hq
      rw [show List.filter q [n] = [] by simp [hqn], List.append_nil, ih]
      constructor
      · rintro ⟨h1, h2, h3⟩
        refine ⟨by omega, h2, fun u hu hun => ?_⟩
        by_cases hun' : u < n
        · exact h3 u hu hun'
        · have hun'' : u = n := by omega
          rw [hun'']; exact hqn
      · rintro ⟨h1, h2, h3⟩
        have htn : t < n := by
          by_contra hne
          have htn' : t = n := by omega
          rw [htn', hqn] at h2
          simp at h2
        exact ⟨htn, h2, fun u hu hun => h3 u hu (by omega)⟩

theorem rangeNextBack_writersOf (hints : ParallelExecutionHints)
    (L : LocationAndType) (pos t : Nat) :
    rangeNextBack (writersOf hints L) pos = some t ↔
      t < hints.length ∧ t < pos ∧ L ∈ (hints.getD t ⟨[], []⟩).write_set ∧
      ∀ u, t < u → u < hints.length → u < pos →
        L ∉ (hints.getD u ⟨[], []⟩).write_set := by
  unfold rangeNextBack writersOf
  rw [List.filter_filter, getLast?_filter_range]
  constructor
  · rintro ⟨h1, h2, h3⟩
    simp only [Bool.and_eq_true, decide_eq_true_eq] at h2
    refine ⟨h1, h2.1, h2.2, fun u hu hun hupos hmem => ?_⟩
    have h5 := h3 u hu hun
    simp only [Bool.and_eq_false_iff, decide_eq_false_iff_not] at h5
    rcases h5 with h | h
    · exact h hupos
    · exact h hmem
  · rintro ⟨h1, h2, h3, h4⟩
    refine ⟨h1, ?_, fun u hu hun => ?_⟩
    · simp only [Bool.and_eq_true, decide_eq_true_eq]
      exact ⟨h2, h3⟩
    · simp only [Bool.and_eq_false_iff, decide_eq_false_iff_not]
      by_cases hupos : u < pos
      · exact Or.inr (h4 u hu hun hupos)
      · exact Or.inl hupos

/-- C2: in the graph built by `generate_tx_dependency`, the dependency list of
transaction `pos` contains a TxId `t'` exactly when some hinted read location
`L` of `pos` has `t'` as the *greatest* earlier transaction whose hinted write
set contains `L`; consequently every recorded edge points to a strictly
smaller TxId. -/
theorem generate_dependency_greatest_writer (hints : ParallelExecutionHints)
    (pos t' : Nat) (hpos : pos < hints.length) :
    (t' ∈ (generate_tx_dependency hints).1.getD pos [] ↔
      ∃ L, L ∈ (hints.getD pos ⟨[], []⟩).read_set ∧ t' < pos ∧
        L ∈ (hints.getD t' ⟨[], []⟩).write_set ∧
        ∀ t'', t' < t'' → t'' < pos →
          L ∉ (hints.getD t'' ⟨[], []⟩).write_set) ∧
    (t' ∈ (generate_tx_dependency hints).1.getD pos [] → t' < pos) := by
  have hdep : (generate_tx_dependency hints).1.getD pos [] = depsOf hints pos := by
    unfold generate_tx_dependency
    rw [List.getD_eq_getElem?_getD, List.getElem?_map, List.getElem?_range hpos]
    rfl
  have main : t' ∈ (generate_tx_dependency hints).1.getD pos [] ↔
      ∃ L, L ∈ (hints.getD pos ⟨[], []⟩).read_set ∧ t' < pos ∧
        L ∈ (hints.getD t' ⟨[], []⟩).write_set ∧
        ∀ t'', t' < t'' → t'' < pos →
          L ∉ (hints.getD t'' ⟨[], []⟩).write_set := by
    rw [hdep]
    unfold depsOf
    rw [List.mem_filterMap]
    constructor
    · rintro ⟨L, hL, hsome⟩
      rw [rangeNextBack_writersOf] at hsome
      obtain ⟨h1, h2, h3, h4⟩ := hsome
      exact ⟨L, hL, h2, h3, fun t'' ht1 ht2 =>
        h4 t'' ht1 (Nat.lt_trans ht2 hpos) ht2⟩
    · rintro ⟨L, hL, h2, h3, h4⟩
      refine ⟨L, hL, ?_⟩
      rw [rangeNextBack_writersOf]
      exact ⟨Nat.lt_trans h2 hpos, h2, h3, fun u hu hun hupos => h4 u hu hupos⟩
  exact ⟨main, fun h => by
    obtain ⟨L, _, h2, _⟩ := main.mp h
    exact h2⟩

/-- C2 (witness): three transactions where tx 2 reads a location written by
both tx 0 and tx 1; its dependency list holds the greatest earlier writer,
tx 1. -/
theorem generate_dependency_greatest_writer_witness :
    (2 : Nat) < 3 ∧
    ((1 ∈ (generate_tx_dependency
        [⟨[], [.basic 7]⟩, ⟨[], [.basic 7]⟩, ⟨[.basic 7], []⟩]).1.getD 2 []) ↔
      ∃ L, L ∈ (List.getD
          [⟨[], [.basic 7]⟩, ⟨[], [.basic 7]⟩, (⟨[.basic 7], []⟩ : TxHint)] 2
          ⟨[], []⟩).read_set ∧ (1 : Nat) < 2 ∧
        L ∈ (List.getD
          [⟨[], [.basic 7]⟩, ⟨[], [.basic 7]⟩, (⟨[.basic 7], []⟩ : TxHint)] 1
          ⟨[], []⟩).write_set ∧
        ∀ t'', 1 < t'' → t'' < 2 →
          L ∉ (List.getD
            [⟨[], [.basic 7]⟩, ⟨[], [.basic 7]⟩, (⟨[.basic 7], []⟩ : TxHint)]
            t'' ⟨[], []⟩).write_set) :=
  ⟨by decide,
   (generate_dependency_greatest_writer
     [⟨[], [.basic 7]⟩, ⟨[], [.basic 7]⟩, ⟨[.basic 7], []⟩] 2 1 (by decide)).1⟩

/-! ## Small `getD`/`set` helpers -/

theorem getD_set_ne {α : Type} (l : List α) (i j : Nat) (b d : α)
    (h : i ≠ j) : (l.set i b).getD j d = l.getD j d := by
  rw [List.getD_eq_getElem?_getD, List.getD_eq_getElem?_getD,
    List.getElem?_set_ne h]

theorem getD_set_self {α : Type} (l : List α) (i : Nat) (b d : α)
    (h : i < l.length) : (l.set i b).getD i d = b := by
  rw [List.getD_eq_getElem?_getD, List.getElem?_set_self h]
  rfl

theorem getD_map_range {α : Type} (f : Nat → α) (d : α) (m i : Nat)
    (hi : i < m) : ((List.range m).map f).getD i d = f i := by
  rw [List.getD_eq_getElem?_getD, List.getElem?_map, List.getElem?_range hi]
  rfl

/-! ## The all-independent fast path (C6) -/

theorem fast_path_chunks_eq (s : TxDependency) (pc : Nat)
    (hai : s.all_independent = true) (hn : 0 < s.tx_dependency.length)
    (hpc : 0 < pc) :
    s.fetch_best_partitions pc =
      some ((List.range (min pc s.tx_dependency.length)).map (fun index =>
        List.range'
          (s.tx_dependency.length / min pc s.tx_dependency.length * index +
            min index (s.tx_dependency.length % min pc s.tx_dependency.length) +
            s.num_finality_txs)
          (s.tx_dependency.length / min pc s.tx_dependency.length +
            if index < s.tx_dependency.length % min pc s.tx_dependency.length
            then 1 else 0))) := by
  have h0 : ¬ (min pc s.tx_dependency.length = 0) := by omega
  unfold TxDependency.fetch_best_partitions TxDependency.all_independent_partitions
  rw [if_pos hai, if_neg h0]

/-- C6 (amended): when the `all_independent` flag is set and the tail is
non-empty, `fetch_best_partitions` returns exactly `min(K, n)` partitions,
each a contiguous ascending run of TxIds of size `n / min(K, n)` or
`n / min(K, n) + 1`; and the flag is set *at construction* exactly when the
graph built from the hints has no dependency edge (the flag is not refreshed
by `update_tx_dependency`, so "no edge exists in the current graph" is the
part of the claim the counterexample refutes). -/
theorem all_independent_fast_path_chunks :
    (∀ (s : TxDependency) (pc : Nat), s.all_independent = true →
      0 < s.tx_dependency.length → 0 < pc →
      ∃ parts, s.fetch_best_partitions pc = some parts ∧
        parts.length = min pc s.tx_dependency.length ∧
        (∀ i, i < parts.length →
          parts.getD i [] = List.range'
            (s.tx_dependency.length / min pc s.tx_dependency.length * i +
              min i (s.tx_dependency.length % min pc s.tx_dependency.length) +
              s.num_finality_txs)
            (s.tx_dependency.length / min pc s.tx_dependency.length +
              if i < s.tx_dependency.length % min pc s.tx_dependency.length
              then 1 else 0)) ∧
        (∀ p ∈ parts,
          p.length = s.tx_dependency.length / min pc s.tx_dependency.length ∨
          p.length =
            s.tx_dependency.length / min pc s.tx_dependency.length + 1)) ∧
    (∀ hints : ParallelExecutionHints,
      (TxDependency.new hints).all_independent = true ↔
      ∀ i, (TxDependency.new hints).tx_dependency.getD i [] = []) := by
  constructor
  · intro s pc hai hn hpc
    refine ⟨_, fast_path_chunks_eq s pc hai hn hpc, ?_, ?_, ?_⟩
    · rw [List.length_map, List.length_range]
    · intro i hi
      rw [List.length_map, List.length_range] at hi
      rw [getD_map_range _ _ _ _ hi]
    · intro p hp
      obtain ⟨i, hi, rfl⟩ := List.mem_map.mp hp
      rw [List.length_range']
      by_cases hir : i < s.tx_dependency.length % min pc s.tx_dependency.length
      · right; rw [if_pos hir]
      · left; rw [if_neg hir]; omega
  · intro hints
    have hdeps : (TxDependency.new hints).tx_dependency =
        (List.range hints.length).map (depsOf hints) := rfl
    have hflag : (TxDependency.new hints).all_independent =
        ! (List.range hints.length).any (fun pos =>
            (hints.getD pos ⟨[], []⟩).read_set.any
              (fun L => (rangeNextBack (writersOf hints L) pos).isSome)) := rfl
    rw [hdeps, hflag]
    constructor
    · intro h i
      rw [Bool.not_eq_true', List.any_eq_false] at h
      by_cases hi : i < hints.length
      · rw [getD_map_range _ _ _ _ hi]
        unfold depsOf
        rw [List.filterMap_eq_nil_iff]
        intro L hL
        have h2 := h i (List.mem_range.mpr hi)
        rw [List.any_eq_true] at h2
        push_neg at h2
        have h3 := h2 L hL
        simpa using h3
      · exact List.getD_eq_default _ _ (by
          rw [List.length_map, List.length_range]; omega)
    · intro h
      rw [Bool.not_eq_true', List.any_eq_false]
      intro pos hpos
      rw [List.mem_range] at hpos
      rw [List.any_eq_true]
      push_neg
      intro L hL
      have h2 := h pos
      rw [getD_map_range _ _ _ _ hpos] at h2
      unfold depsOf at h2
      rw [List.filterMap_eq_nil_iff] at h2
      simpa using h2 L hL

/-- C6 (witness): flag set, 5 transactions already 3 finalized, 3 partitions
requested. -/
theorem all_independent_fast_path_chunks_witness :
    (⟨[[], [], [], [], []], 3, none, none, true⟩ : TxDependency).all_independent
        = true ∧
    0 < (⟨[[], [], [], [], []], 3, none, none, true⟩ :
        TxDependency).tx_dependency.length ∧
    0 < 3 ∧
    ∃ parts,
      TxDependency.fetch_best_partitions
          ⟨[[], [], [], [], []], 3, none, none, true⟩ 3 = some parts ∧
      parts.length = min 3 (⟨[[], [], [], [], []], 3, none, none, true⟩ :
        TxDependency).tx_dependency.length ∧
      (∀ i, i < parts.length →
        parts.getD i [] = List.range'
          ((⟨[[], [], [], [], []], 3, none, none, true⟩ :
              TxDependency).tx_dependency.length /
              min 3 (⟨[[], [], [], [], []], 3, none, none, true⟩ :
                TxDependency).tx_dependency.length * i +
            min i ((⟨[[], [], [], [], []], 3, none, none, true⟩ :
              TxDependency).tx_dependency.length %
              min 3 (⟨[[], [], [], [], []], 3, none, none, true⟩ :
                TxDependency).tx_dependency.length) +
            (⟨[[], [], [], [], []], 3, none, none, true⟩ :
              TxDependency).num_finality_txs)
          ((⟨[[], [], [], [], []], 3, none, none, true⟩ :
              TxDependency).tx_dependency.length /
              min 3 (⟨[[], [], [], [], []], 3, none, none, true⟩ :
                TxDependency).tx_dependency.length +
            if i < (⟨[[], [], [], [], []], 3, none, none, true⟩ :
              TxDependency).tx_dependency.length %
              min 3 (⟨[[], [], [], [], []], 3, none, none, true⟩ :
                TxDependency).tx_dependency.length then 1 else 0)) ∧
      (∀ p ∈ parts,
        p.length = (⟨[[], [], [], [], []], 3, none, none, true⟩ :
            TxDependency).tx_dependency.length /
            min 3 (⟨[[], [], [], [], []], 3, none, none, true⟩ :
              TxDependency).tx_dependency.length ∨
        p.length = (⟨[[], [], [], [], []], 3, none, none, true⟩ :
            TxDependency).tx_dependency.length /
            min 3 (⟨[[], [], [], [], []], 3, none, none, true⟩ :
              TxDependency).tx_dependency.length + 1) :=
  ⟨rfl, by decide, by decide,
   all_independent_fast_path_chunks.1
     ⟨[[], [], [], [], []], 3, none, none, true⟩ 3 rfl (by decide) (by decide)⟩

/-! ## Monotonicity facts about the scan and flood (towards C10 and C1) -/

theorem getD_set_true_mono (l : List Bool) (j i : Nat)
    (h : l.getD i false = true) : (l.set j true).getD i false = true := by
  by_cases hij : j = i
  · subst hij
    by_cases hl : j < l.length
    · rw [getD_set_self _ _ _ _ hl]
    · rw [List.set_eq_of_length_le (by omega)]; exact h
  · rw [getD_set_ne _ _ _ _ _ hij]; exact h

theorem scanDepFold_none (nft len txj : Nat) (l : List Nat) :
    l.foldl (scanDepStep nft len txj) none = none := by
  induction l with
  | nil => rfl
  | cons x xs ih => simpa [scanDepStep] using ih

theorem scanDepFold_spec (nft len txj : Nat) (l : List Nat)
    (st st' : ScanResult)
    (h : l.foldl (scanDepStep nft len txj) (some st) = some st') :
    st'.num_group = st.num_group ∧ st'.singles = st.singles ∧
    st'.rel.length = st.rel.length ∧
    (∀ i, st.rel.getD i false = true → st'.rel.getD i false = true) := by
  induction l generalizing st with
  | nil =>
    cases h
    exact ⟨rfl, rfl, rfl, fun _ h => h⟩
  | cons x xs ih =>
    rw [List.foldl_cons] at h
    by_cases hc : x < nft ∨ nft + len ≤ x
    · rw [show scanDepStep nft len txj (some st) x = none by
        simp [scanDepStep, hc], scanDepFold_none] at h
      cases h
    · rw [show scanDepStep nft len txj (some st) x =
          some { st with
            revert := st.revert.set (x - nft)
              (st.revert.getD (x - nft) [] ++ [txj]),
            rel := st.rel.set (x - nft) true } by
        simp [scanDepStep, hc]] at h
      obtain ⟨h1, h2, h3, h4⟩ := ih _ h
      refine ⟨h1, h2, by rw [h3]; exact List.length_set .., fun i hi => ?_⟩
      exact h4 i (getD_set_true_mono _ _ _ hi)

theorem scanStep_mono (deps : List (List Nat)) (nft len index : Nat)
    (st st' : ScanResult) (h : scanStep deps nft len index st = some st') :
    st.num_group ≤ st'.num_group ∧ st'.rel.length = st.rel.length ∧
    (∀ i, st.rel.getD i false = true → st'.rel.getD i false = true) := by
  unfold scanStep at h
  by_cases he : (deps.getD index []).isEmpty
  · rw [if_pos he] at h
    by_cases hr : st.rel.getD index false
    · rw [if_pos hr] at h
      cases h
      exact ⟨Nat.le_refl _, rfl, fun _ h => h⟩
    · rw [if_neg hr] at h
      cases h
      exact ⟨Nat.le_succ _, rfl, fun _ h => h⟩
  · rw [if_neg he] at h
    obtain ⟨h1, h2, h3, h4⟩ := scanDepFold_spec _ _ _ _ _ _ h
    refine ⟨Nat.le_of_eq h1.symm, by rw [h3]; exact List.length_set .., ?_⟩
    intro i hi
    exact h4 i (getD_set_true_mono _ _ _ hi)

theorem scanStep_sets_rel (deps : List (List Nat)) (nft len index : Nat)
    (st st' : ScanResult) (h : scanStep deps nft len index st = some st')
    (hne : (deps.getD index []).isEmpty = false)
    (hidx : index < st.rel.length) :
    st'.rel.getD index false = true := by
  unfold scanStep at h
  rw [if_neg (by rw [hne]; exact Bool.false_ne_true)] at h
  obtain ⟨-, -, -, h4⟩ := scanDepFold_spec _ _ _ _ _ _ h
  exact h4 index (getD_set_self _ _ _ _ hidx)

theorem scanFrom_mono (deps : List (List Nat)) (nft len k : Nat)
    (st st' : ScanResult) (h : scanFrom deps nft len k st = some st') :
    st.num_group ≤ st'.num_group ∧
    (∀ i, st.rel.getD i false = true → st'.rel.getD i false = true) := by
  induction k generalizing st with
  | zero =>
    cases h
    exact ⟨Nat.le_refl _, fun _ h => h⟩
  | succ k ih =>
    rw [scanFrom, Option.bind_eq_some] at h
    obtain ⟨st1, hst1, hrest⟩ := h
    obtain ⟨m1, r1⟩ := scanStep_mono _ _ _ _ _ _ hst1
    obtain ⟨m2, r2⟩ := ih _ hrest
    exact ⟨Nat.le_trans m1 m2, fun i hi => r2 i (r1.2 i hi)⟩

theorem floodFrom_ng_mono (deps revert : List (List Nat)) (tw : List Nat)
    (nft len k : Nat) (rel : List Bool) (wg : WeightedGroup) (ng : Nat) :
    ng ≤ (floodFrom deps revert tw nft len k rel wg ng).2 := by
  induction k generalizing rel wg ng with
  | zero => exact Nat.le_refl _
  | succ k ih =>
    rw [floodFrom]
    by_cases hr : rel.getD k false
    · rw [if_pos hr]
      exact Nat.le_trans (Nat.le_succ _) (ih ..)
    · rw [if_neg hr]
      exact ih ..

theorem floodFrom_pos (deps revert : List (List Nat)) (tw : List Nat)
    (nft len k : Nat) (rel : List Bool) (wg : WeightedGroup) (ng i : Nat)
    (hik : i < k) (hrel : rel.getD i false = true) :
    1 ≤ (floodFrom deps revert tw nft len k rel wg ng).2 := by
  induction k generalizing rel wg ng with
  | zero => omega
  | succ k ih =>
    rw [floodFrom]
    by_cases hr : rel.getD k false
    · rw [if_pos hr]
      have h2 := floodFrom_ng_mono deps revert tw nft len k
        (bfs deps revert nft (tw.getD k 0) (len + 1) [k] (rel.set k false)
          [] 0).2.1
        (wgInsert
          (bfs deps revert nft (tw.getD k 0) (len + 1) [k] (rel.set k false)
            [] 0).2.2
          (bfs deps revert nft (tw.getD k 0) (len + 1) [k] (rel.set k false)
            [] 0).1 wg)
        (ng + 1)
      exact Nat.le_trans (Nat.le_add_left 1 ng) h2
    · rw [if_neg hr]
      have hik' : i < k := by
        rcases Nat.lt_succ_iff_lt_or_eq.mp hik with h | h
        · exact h
        · subst h; rw [hrel] at hr; exact absurd rfl hr
      exact ih rel wg ng hik' hrel

theorem getD_replicate_eq {α : Type} (n i : Nat) (a d : α) :
    (List.replicate n a).getD i d = if i < n then a else d := by
  rw [List.getD_eq_getElem?_getD, List.getElem?_replicate]
  split <;> rfl

theorem weightedGroups_ng_pos (s : TxDependency) (wg : WeightedGroup)
    (ng : Nat) (hlen : 0 < s.tx_dependency.length)
    (h : s.weightedGroups = some (wg, ng)) : 0 < ng := by
  unfold TxDependency.weightedGroups at h
  rw [Option.map_eq_some'] at h
  obtain ⟨sc, hsc, hval⟩ := h
  set tw : List Nat :=
    s.tx_weight.getD (List.replicate s.tx_dependency.length
      RAW_TRANSFER_WEIGHT) with htw
  set wg0 : WeightedGroup :=
    (if sc.singles.isEmpty then [] else [(RAW_TRANSFER_WEIGHT, sc.singles)])
    with hwg0
  have hval' : floodFrom s.tx_dependency sc.revert tw s.num_finality_txs
      s.tx_dependency.length s.tx_dependency.length sc.rel wg0 sc.num_group
      = (wg, ng) := hval
  have hng := congrArg Prod.snd hval'
  obtain ⟨m, hm⟩ : ∃ m, s.tx_dependency.length = m + 1 :=
    ⟨s.tx_dependency.length - 1, by omega⟩
  unfold scanPhase at hsc
  rw [hm, scanFrom, Option.bind_eq_some] at hsc
  obtain ⟨st1, hst1, hrest⟩ := hsc
  by_cases he : ((s.tx_dependency.getD m []).isEmpty : Bool)
  · -- tail index m becomes a singleton group during the scan
    have h1 : 1 ≤ st1.num_group := by
      unfold scanStep at hst1
      rw [if_pos he,
        if_neg (by rw [getD_replicate_eq]; split <;> simp)] at hst1
      cases hst1
      exact Nat.le_refl _
    have h2 := (scanFrom_mono _ _ _ _ _ _ hrest).1
    have h3 := floodFrom_ng_mono s.tx_dependency sc.revert tw
      s.num_finality_txs s.tx_dependency.length s.tx_dependency.length
      sc.rel wg0 sc.num_group
    omega
  · -- tail index m keeps its related flag, so the flood emits a group
    have h1 : st1.rel.getD m false = true := by
      refine scanStep_sets_rel _ _ _ _ _ _ hst1 (by simpa using he) ?_
      simp
    have h2 := (scanFrom_mono _ _ _ _ _ _ hrest).2 m h1
    have h3 := floodFrom_pos s.tx_dependency sc.revert tw
      s.num_finality_txs s.tx_dependency.length s.tx_dependency.length
      sc.rel wg0 sc.num_group m (by omega) h2
    omega

/-- C10 (amended): whenever at least one partition is requested and the
non-finalized tail is non-empty, no returned partition is empty; with an
empty tail (or a zero partition request) the general path instead returns a
single empty partition, as the counterexample shows. -/
theorem fetch_partitions_no_empty (s : TxDependency) (pc : Nat)
    (res : List (List Nat)) (hpc : 0 < pc)
    (hlen : 0 < s.tx_dependency.length)
    (hres : s.fetch_best_partitions pc = some res) :
    ∀ p ∈ res, p ≠ [] := by
  unfold TxDependency.fetch_best_partitions at hres
  by_cases hai : s.all_independent
  · rw [if_pos hai] at hres
    unfold TxDependency.all_independent_partitions at hres
    rw [if_neg (show ¬ (min pc s.tx_dependency.length = 0) by omega)] at hres
    have hres' := Option.some.inj hres
    subst hres'
    intro p hp
    obtain ⟨i, hi, rfl⟩ := List.mem_map.mp hp
    have hcs : 1 ≤ s.tx_dependency.length / min pc s.tx_dependency.length := by
      rw [Nat.one_le_div_iff (by omega)]
      omega
    apply List.ne_nil_of_length_pos
    rw [List.length_range']
    split <;> omega
  · rw [if_neg hai, if_neg (by omega)] at hres
    rw [Option.map_eq_some'] at hres
    obtain ⟨⟨wg, ng⟩, hwg, hval⟩ := hres
    have hng := weightedGroups_ng_pos s wg ng hlen hwg
    have hval' : (if min pc ng = 0 then [[]]
        else (distributeCore wg (min pc ng)).1.filter
          (fun p => ! p.isEmpty)) = res := hval
    rw [if_neg (show ¬ (min pc ng = 0) by omega)] at hval'
    subst hval'
    intro p hp
    have hmem := List.of_mem_filter hp
    simpa using hmem

/-- C10 (witness): general path at a two-transaction chain with two requested
partitions. -/
theorem fetch_partitions_no_empty_witness :
    [0, 1] ≠ ([] : List Nat) :=
  fetch_partitions_no_empty ⟨[[], [0]], 0, none, none, false⟩ 2 [[0, 1]]
    (by decide) (by decide) (by decide) [0, 1] (by decide)

/-! ## `BTreeSet` insertion lemmas -/

theorem sinsert_mem (x y : Nat) (p : List Nat) :
    y ∈ sinsert x p ↔ y = x ∨ y ∈ p := by
  induction p with
  | nil => simp [sinsert]
  | cons z zs ih =>
    rw [sinsert]
    by_cases h1 : x < z
    · rw [if_pos h1]; simp
    · rw [if_neg h1]
      by_cases h2 : x = z
      · rw [if_pos h2]
        subst h2
        simp only [List.mem_cons]
        constructor
        · exact fun h => Or.inr h
        · rintro (rfl | h)
          · exact Or.inl rfl
          · exact h
      · rw [if_neg h2]
        simp only [List.mem_cons, ih]
        tauto

theorem sinsert_sorted (x : Nat) (p : List Nat)
    (h : List.Sorted (· < ·) p) : List.Sorted (· < ·) (sinsert x p) := by
  induction p with
  | nil => simp [sinsert]
  | cons z zs ih =>
    rw [sinsert]
    rw [List.sorted_cons] at h
    by_cases h1 : x < z
    · rw [if_pos h1]
      rw [List.sorted_cons]
      refine ⟨?_, List.sorted_cons.mpr h⟩
      intro b hb
      rcases List.mem_cons.mp hb with rfl | hb'
      · exact h1
      · exact Nat.lt_trans h1 (h.1 b hb')
    · rw [if_neg h1]
      by_cases h2 : x = z
      · rw [if_pos h2]
        exact List.sorted_cons.mpr h
      · rw [if_neg h2]
        rw [List.sorted_cons]
        refine ⟨?_, ih h.2⟩
        intro b hb
        rcases (sinsert_mem x b zs).mp hb with rfl | hb'
        · omega
        · exact h.1 b hb'

theorem sinsertAll_mem (g p : List Nat) (y : Nat) :
    y ∈ sinsertAll g p ↔ y ∈ g ∨ y ∈ p := by
  induction g generalizing p with
  | nil => simp [sinsertAll]
  | cons x xs ih =>
    show y ∈ sinsertAll xs (sinsert x p) ↔ _
    rw [ih, sinsert_mem]
    simp only [List.mem_cons]
    tauto

theorem sinsertAll_sorted (g p : List Nat) (h : List.Sorted (· < ·) p) :
    List.Sorted (· < ·) (sinsertAll g p) := by
  induction g generalizing p with
  | nil => exact h
  | cons x xs ih => exact ih _ (sinsert_sorted x p h)

/-! ## Heap lemmas -/

theorem heapPush_mem (x e : Nat × Nat) (l : List (Nat × Nat)) :
    e ∈ heapPush x l ↔ e = x ∨ e ∈ l := by
  induction l with
  | nil => simp [heapPush]
  | cons y ys ih =>
    rw [heapPush]
    split
    · simp
    · simp only [List.mem_cons, ih]
      tauto

theorem heapPush_length (x : Nat × Nat) (l : List (Nat × Nat)) :
    (heapPush x l).length = l.length + 1 := by
  induction l with
  | nil => rfl
  | cons y ys ih =>
    rw [heapPush]
    split
    · rfl
    · simp only [List.length_cons, ih]

theorem heapPush_ne_nil (x : Nat × Nat) (l : List (Nat × Nat)) :
    heapPush x l ≠ [] := by
  have := heapPush_length x l
  intro h
  rw [h] at this
  simp at this

/-! ## Breadth-first flood accounting -/

theorem count_true_set_false (l : List Bool) (i : Nat)
    (h : l.getD i false = true) :
    (l.set i false).count true + 1 = l.count true := by
  induction l generalizing i with
  | nil => simp [List.getD] at h
  | cons b bs ih =>
    cases i with
    | zero =>
      have hb : b = true := h
      subst hb
      simp [List.count_cons]
    | succ i =>
      have h' : bs.getD i false = true := h
      rw [List.set_cons_succ]
      simp only [List.count_cons]
      have := ih i h'
      omega

theorem getD_set_true_char (l : List Bool) (j i : Nat) :
    (l.set j true).getD i false = true ↔
      l.getD i false = true ∨ (i = j ∧ j < l.length) := by
  by_cases hij : i = j
  · subst hij
    by_cases hl : i < l.length
    · rw [getD_set_self _ _ _ _ hl]
      simp [hl]
    · rw [List.set_eq_of_length_le (by omega)]
      simp [hl]
  · rw [getD_set_ne _ _ _ _ _ (fun h => hij h.symm)]
    simp [hij]

theorem getD_false_lt_length (l : List Bool) (i : Nat)
    (h : l.getD i false = true) : i < l.length := by
  by_contra hc
  rw [List.getD_eq_default _ _ (by omega)] at h
  cases h

/-- Full specification of `pushNeighbors`: flags only get cleared, and the
queue grows by exactly the (distinct) indices whose flag it cleared. -/
theorem pushNeighbors_spec (nft : Nat) (nbrs : List Nat) :
    ∀ (q : List Nat) (rel : List Bool),
    (pushNeighbors nft nbrs q rel).2.length = rel.length ∧
    (∀ i, (pushNeighbors nft nbrs q rel).2.getD i false = true →
      rel.getD i false = true) ∧
    ∃ A : List Nat,
      (pushNeighbors nft nbrs q rel).1 = q ++ A ∧ A.Nodup ∧
      (∀ i, i ∈ A ↔ rel.getD i false = true ∧
        (pushNeighbors nft nbrs q rel).2.getD i false = false) ∧
      (∀ i ∈ A, i < rel.length) := by
  induction nbrs with
  | nil =>
    intro q rel
    refine ⟨rfl, fun i h => h, [], by simp [pushNeighbors], List.nodup_nil,
      fun i => ?_, by simp⟩
    simp only [List.not_mem_nil, false_iff]
    rintro ⟨h1, h2⟩
    rw [show pushNeighbors nft [] q rel = (q, rel) from rfl] at h2
    rw [h1] at h2
    cases h2
  | cons x xs ih =>
    intro q rel
    rw [pushNeighbors]
    by_cases hr : rel.getD (x - nft) false
    · rw [if_pos hr]
      obtain ⟨L1, L2, A', hA1, hA2, hA3, hA4⟩ :=
        ih (q ++ [x - nft]) (rel.set (x - nft) false)
      have hlt : x - nft < rel.length := getD_false_lt_length rel _ hr
      have hmono : ∀ i,
          (rel.set (x - nft) false).getD i false = true →
          rel.getD i false = true := by
        intro i hi
        by_cases hix : i = x - nft
        · subst hix
          rw [getD_set_self _ _ _ _ hlt] at hi
          cases hi
        · rw [getD_set_ne _ _ _ _ _ (fun h => hix h.symm)] at hi
          exact hi
      refine ⟨by rw [L1, List.length_set], fun i hi => hmono i (L2 i hi),
        (x - nft) :: A', by rw [hA1, List.append_assoc]; rfl, ?_, ?_, ?_⟩
      · refine List.nodup_cons.mpr ⟨?_, hA2⟩
        intro hmem
        have := (hA3 _).mp hmem
        rw [getD_set_self _ _ _ _ hlt] at this
        cases this.1
      · intro i
        by_cases hix : i = x - nft
        · subst hix
          simp only [List.mem_cons, true_or, true_iff]
          refine ⟨hr, ?_⟩
          by_contra hc
          have htrue : (pushNeighbors nft xs (q ++ [x - nft])
              (rel.set (x - nft) false)).2.getD (x - nft) false = true := by
            cases h : (pushNeighbors nft xs (q ++ [x - nft])
              (rel.set (x - nft) false)).2.getD (x - nft) false
            · exact absurd h hc
            · rfl
          have h2 := L2 _ htrue
          rw [getD_set_self _ _ _ _ hlt] at h2
          cases h2
        · simp only [List.mem_cons, hix, false_or]
          rw [hA3 i, getD_set_ne _ _ _ _ _ (fun h => hix h.symm)]
      · intro i hi
        rcases List.mem_cons.mp hi with rfl | hi'
        · exact hlt
        · rw [List.length_set] at hA4
          exact hA4 i hi'
    · rw [if_neg hr]
      obtain ⟨L1, L2, A', hA1, hA2, hA3, hA4⟩ := ih q rel
      exact ⟨L1, L2, A', hA1, hA2, hA3, hA4⟩

theorem pushNeighbors_measure (nft : Nat) (nbrs : List Nat) :
    ∀ (q : List Nat) (rel : List Bool),
    (pushNeighbors nft nbrs q rel).1.length +
      (pushNeighbors nft nbrs q rel).2.count true ≤
    q.length + rel.count true := by
  induction nbrs with
  | nil => intro q rel; exact Nat.le_refl _
  | cons x xs ih =>
    intro q rel
    rw [pushNeighbors]
    by_cases hr : rel.getD (x - nft) false
    · rw [if_pos hr]
      have hc := count_true_set_false rel (x - nft) hr
      have h2 := ih (q ++ [x - nft]) (rel.set (x - nft) false)
      rw [List.length_append, List.length_cons, List.length_nil] at h2
      omega
    · rw [if_neg hr]
      exact ih q rel

/-- Full specification of the flood's queue loop: given enough fuel (the
queue length plus the number of set flags), the collected group consists of
the initial queue plus exactly the indices whose flag the loop cleared, each
exactly once. -/
theorem bfs_spec (deps revert : List (List Nat)) (nft w : Nat) :
    ∀ (fuel : Nat) (q : List Nat) (rel : List Bool) (group : List Nat)
      (weight : Nat),
    q.Nodup → (∀ i ∈ q, rel.getD i false = false) →
    (∀ i ∈ q, i < rel.length) →
    q.length + rel.count true ≤ fuel →
    (bfs deps revert nft w fuel q rel group weight).2.1.length = rel.length ∧
    (∀ i, (bfs deps revert nft w fuel q rel group weight).2.1.getD i false =
      true → rel.getD i false = true) ∧
    ∃ A : List Nat,
      (bfs deps revert nft w fuel q rel group weight).1 =
        group ++ A.map (fun i => i + nft) ∧
      A.Nodup ∧ (∀ i ∈ A, i < rel.length) ∧
      (∀ i, i ∈ A ↔ i ∈ q ∨ (rel.getD i false = true ∧
        (bfs deps revert nft w fuel q rel group weight).2.1.getD i false =
          false)) := by
  intro fuel
  induction fuel with
  | zero =>
    intro q rel group weight hnd hq hqb hm
    have hq0 : q = [] := by
      cases q with
      | nil => rfl
      | cons a as => simp at hm
    subst hq0
    refine ⟨rfl, fun i h => h, [],
      by rw [show bfs deps revert nft w 0 [] rel group weight =
        (group, rel, weight) from rfl]; simp,
      List.nodup_nil, by simp, fun i => ?_⟩
    simp only [List.not_mem_nil, false_iff, not_or]
    refine ⟨fun h => h, ?_⟩
    rintro ⟨h1, h2⟩
    rw [show (bfs deps revert nft w 0 [] rel group weight) =
      (group, rel, weight) from rfl] at h2
    rw [h1] at h2
    cases h2
  | succ fuel ih =>
    intro q rel group weight hnd hq hqb hm
    cases q with
    | nil =>
      refine ⟨rfl, fun i h => h, [],
        by rw [show bfs deps revert nft w (fuel + 1) [] rel group weight =
          (group, rel, weight) from rfl]; simp,
        List.nodup_nil, by simp, fun i => ?_⟩
      simp only [List.not_mem_nil, false_iff, not_or]
      refine ⟨fun h => h, ?_⟩
      rintro ⟨h1, h2⟩
      rw [show (bfs deps revert nft w (fuel + 1) [] rel group weight) =
        (group, rel, weight) from rfl] at h2
      rw [h1] at h2
      cases h2
    | cons top rest =>
      have hstep : bfs deps revert nft w (fuel + 1) (top :: rest) rel group
          weight =
          bfs deps revert nft w fuel
            (pushNeighbors nft (deps.getD top [] ++ revert.getD top [])
              rest rel).1
            (pushNeighbors nft (deps.getD top [] ++ revert.getD top [])
              rest rel).2
            (group ++ [top + nft]) (weight + w) := rfl
      obtain ⟨P1, P2, Ap, hAp1, hAp2, hAp3, hAp4⟩ :=
        pushNeighbors_spec nft (deps.getD top [] ++ revert.getD top [])
          rest rel
      have hndr : rest.Nodup := (List.nodup_cons.mp hnd).2
      have htopnr : top ∉ rest := (List.nodup_cons.mp hnd).1
      have hreln : ∀ i ∈ rest, rel.getD i false = false :=
        fun i hi => hq i (List.mem_cons_of_mem _ hi)
      have hreltop : rel.getD top false = false := hq top (List.mem_cons_self _ _)
      have hP2' : ∀ i, rel.getD i false = false →
          (pushNeighbors nft (deps.getD top [] ++ revert.getD top [])
            rest rel).2.getD i false = false := by
        intro i hi
        by_contra hc
        have ht : (pushNeighbors nft (deps.getD top [] ++ revert.getD top [])
            rest rel).2.getD i false = true := by
          cases h : (pushNeighbors nft (deps.getD top [] ++ revert.getD top [])
              rest rel).2.getD i false
          · exact absurd h hc
          · rfl
        rw [P2 i ht] at hi
        cases hi
      have hq' : ∀ i ∈ (pushNeighbors nft
          (deps.getD top [] ++ revert.getD top []) rest rel).1,
          (pushNeighbors nft (deps.getD top [] ++ revert.getD top [])
            rest rel).2.getD i false = false := by
        intro i hi
        rw [hAp1] at hi
        rcases List.mem_append.mp hi with hi' | hi'
        · exact hP2' i (hreln i hi')
        · exact ((hAp3 i).mp hi').2
      have hnd' : (pushNeighbors nft
          (deps.getD top [] ++ revert.getD top []) rest rel).1.Nodup := by
        rw [hAp1]
        refine List.Nodup.append hndr hAp2 ?_
        intro i hi1 hi2
        have h1 := hreln i hi1
        have h2 := ((hAp3 i).mp hi2).1
        rw [h1] at h2
        cases h2
      have hqb' : ∀ i ∈ (pushNeighbors nft
          (deps.getD top [] ++ revert.getD top []) rest rel).1,
          i < (pushNeighbors nft (deps.getD top [] ++ revert.getD top [])
            rest rel).2.length := by
        intro i hi
        rw [P1, hAp1] at *
        rcases List.mem_append.mp hi with hi' | hi'
        · exact hqb i (List.mem_cons_of_mem _ hi')
        · exact hAp4 i hi'
      have hm' : (pushNeighbors nft
          (deps.getD top [] ++ revert.getD top []) rest rel).1.length +
          (pushNeighbors nft (deps.getD top [] ++ revert.getD top [])
            rest rel).2.count true ≤ fuel := by
        have := pushNeighbors_measure nft
          (deps.getD top [] ++ revert.getD top []) rest rel
        rw [List.length_cons] at hm
        omega
      obtain ⟨Q1, Q2, A', hA'1, hA'2, hA'3, hA'4⟩ :=
        ih _ _ (group ++ [top + nft]) (weight + w) hnd' hq' hqb' hm'
      have hQ2' : ∀ i, (pushNeighbors nft
          (deps.getD top [] ++ revert.getD top []) rest rel).2.getD i false =
          false →
          (bfs deps revert nft w fuel
            (pushNeighbors nft (deps.getD top [] ++ revert.getD top [])
              rest rel).1
            (pushNeighbors nft (deps.getD top [] ++ revert.getD top [])
              rest rel).2
            (group ++ [top + nft]) (weight + w)).2.1.getD i false = false := by
        intro i hi
        by_contra hc
        have ht : (bfs deps revert nft w fuel
            (pushNeighbors nft (deps.getD top [] ++ revert.getD top [])
              rest rel).1
            (pushNeighbors nft (deps.getD top [] ++ revert.getD top [])
              rest rel).2
            (group ++ [top + nft]) (weight + w)).2.1.getD i false = true := by
          cases h : (bfs deps revert nft w fuel
              (pushNeighbors nft (deps.getD top [] ++ revert.getD top [])
                rest rel).1
              (pushNeighbors nft (deps.getD top [] ++ revert.getD top [])
                rest rel).2
              (group ++ [top + nft]) (weight + w)).2.1.getD i false
          · exact absurd h hc
          · rfl
        rw [Q2 i ht] at hi
        cases hi
      rw [hstep]
      refine ⟨by rw [Q1, P1], fun i hi => P2 i (Q2 i hi), top :: A', ?_, ?_,
        ?_, ?_⟩
      · rw [hA'1]
        simp
      · refine List.nodup_cons.mpr ⟨?_, hA'2⟩
        intro hmem
        rcases (hA'4 top).mp hmem with h1 | h1
        · rw [hAp1] at h1
          rcases List.mem_append.mp h1 with h2 | h2
          · exact htopnr h2
          · have := ((hAp3 top).mp h2).1
            rw [hreltop] at this
            cases this
        · have := P2 top h1.1
          rw [hreltop] at this
          cases this
      · intro i hi
        rcases List.mem_cons.mp hi with rfl | hi'
        · exact hqb i (List.mem_cons_self _ _)
        · rw [← P1]
          exact hA'3 i hi'
      · intro i
        have hmemq : ∀ j, j ∈ (pushNeighbors nft
            (deps.getD top [] ++ revert.getD top []) rest rel).1 ↔
            j ∈ rest ∨ j ∈ Ap := by
          intro j
          rw [hAp1, List.mem_append]
        rw [List.mem_cons, hA'4 i, hmemq i, List.mem_cons]
        constructor
        · rintro (rfl | (h | h) | h)
          · exact Or.inl (Or.inl rfl)
          · exact Or.inl (Or.inr h)
          · refine Or.inr ⟨((hAp3 i).mp h).1, ?_⟩
            exact hQ2' i ((hAp3 i).mp h).2
          · exact Or.inr ⟨P2 i h.1, h.2⟩
        · rintro ((rfl | h) | ⟨h1, h2⟩)
          · exact Or.inl rfl
          · exact Or.inr (Or.inl (Or.inl h))
          · by_cases hpr : (pushNeighbors nft
                (deps.getD top [] ++ revert.getD top []) rest rel).2.getD i
                false = true
            · exact Or.inr (Or.inr ⟨hpr, h2⟩)
            · have hpf : (pushNeighbors nft
                  (deps.getD top [] ++ revert.getD top []) rest rel).2.getD i
                  false = false := by
                cases h : (pushNeighbors nft
                    (deps.getD top [] ++ revert.getD top []) rest rel).2.getD
                    i false
                · rfl
                · exact absurd h hpr
              exact Or.inr (Or.inl (Or.inr ((hAp3 i).mpr ⟨h1, hpf⟩)))

/-! ## `weighted_group` map lemmas -/

/-- All groups stored in the `weighted_group` map. -/
def wgGroups (wg : WeightedGroup) : List (List Nat) :=
  (wg.map Prod.snd).flatten

/-- Keys of the map are strictly ascending (`BTreeMap` well-formedness). -/
def wgKeysSorted (wg : WeightedGroup) : Prop :=
  List.Sorted (· < ·) (wg.map Prod.fst)

theorem wgInsert_groups_perm (w : Nat) (g : List Nat) (wg : WeightedGroup) :
    List.Perm (wgGroups (wgInsert w g wg)) (wgGroups wg ++ [g]) := by
  induction wg with
  | nil => simp [wgGroups, wgInsert]
  | cons b rest ih =>
    obtain ⟨k, gs⟩ := b
    rw [wgInsert]
    by_cases h1 : w < k
    · rw [if_pos h1]
      show List.Perm ([g] ++ (gs ++ wgGroups rest)) ((gs ++ wgGroups rest) ++ [g])
      exact List.perm_append_comm
    · rw [if_neg h1]
      by_cases h2 : w = k
      · rw [if_pos h2]
        show List.Perm ((gs ++ [g]) ++ wgGroups rest)
          ((gs ++ wgGroups rest) ++ [g])
        rw [List.append_assoc, List.append_assoc]
        exact List.Perm.append_left gs List.perm_append_comm
      · rw [if_neg h2]
        show List.Perm (gs ++ wgGroups (wgInsert w g rest))
          ((gs ++ wgGroups rest) ++ [g])
        rw [List.append_assoc]
        exact List.Perm.append_left gs ih

theorem wgInsert_keys_subset (w : Nat) (g : List Nat) (wg : WeightedGroup)
    (x : Nat) (hx : x ∈ (wgInsert w g wg).map Prod.fst) :
    x = w ∨ x ∈ wg.map Prod.fst := by
  induction wg with
  | nil => simpa [wgInsert] using hx
  | cons b rest ih =>
    obtain ⟨k, gs⟩ := b
    rw [wgInsert] at hx
    by_cases h1 : w < k
    · rw [if_pos h1] at hx
      simpa using hx
    · rw [if_neg h1] at hx
      by_cases h2 : w = k
      · rw [if_pos h2] at hx
        subst h2
        simpa using hx
      · rw [if_neg h2] at hx
        simp only [List.map_cons, List.mem_cons] at hx ⊢
        rcases hx with rfl | hx'
        · exact Or.inr (Or.inl rfl)
        · rcases ih hx' with h | h
          · exact Or.inl h
          · exact Or.inr (Or.inr h)

theorem wgInsert_keysSorted (w : Nat) (g : List Nat) (wg : WeightedGroup)
    (h : wgKeysSorted wg) : wgKeysSorted (wgInsert w g wg) := by
  induction wg with
  | nil => simp [wgKeysSorted, wgInsert]
  | cons b rest ih =>
    obtain ⟨k, gs⟩ := b
    unfold wgKeysSorted at h ⊢
    rw [List.map_cons, List.sorted_cons] at h
    rw [wgInsert]
    by_cases h1 : w < k
    · rw [if_pos h1]
      rw [List.map_cons, List.sorted_cons]
      refine ⟨?_, by rw [List.map_cons, List.sorted_cons]; exact h⟩
      intro b hb
      simp only [List.map_cons, List.mem_cons] at hb
      rcases hb with rfl | hb'
      · exact h1
      · exact Nat.lt_trans h1 (h.1 b hb')
    · rw [if_neg h1]
      by_cases h2 : w = k
      · rw [if_pos h2]
        rw [List.map_cons, List.sorted_cons]
        exact h
      · rw [if_neg h2]
        rw [List.map_cons, List.sorted_cons]
        refine ⟨?_, ih h.2⟩
        intro b hb
        rcases wgInsert_keys_subset w g rest b hb with rfl | hb'
        · omega
        · exact h.1 b hb'

theorem floodFrom_keysSorted (deps revert : List (List Nat)) (tw : List Nat)
    (nft len : Nat) :
    ∀ (k : Nat) (rel : List Bool) (wg : WeightedGroup) (ng : Nat),
    wgKeysSorted wg →
    wgKeysSorted (floodFrom deps revert tw nft len k rel wg ng).1 := by
  intro k
  induction k with
  | zero => intro rel wg ng h; exact h
  | succ k ih =>
    intro rel wg ng h
    rw [floodFrom]
    by_cases hr : rel.getD k false
    · rw [if_pos hr]
      exact ih _ _ _ (wgInsert_keysSorted _ _ _ h)
    · rw [if_neg hr]
      exact ih _ _ _ h

/-- Full specification of the flood loop below index `k`: it consumes exactly
the set flags below `k`, emitting them (shifted by `num_finality_txs`) as
groups appended to the map, one group per flood, each TxId exactly once. -/
theorem floodFrom_spec (deps revert : List (List Nat)) (tw : List Nat)
    (nft len : Nat) :
    ∀ (k : Nat) (rel : List Bool) (wg : WeightedGroup) (ng : Nat),
    rel.length = len →
    (∀ j, k ≤ j → rel.getD j false = false) →
    ∃ Gs : List (List Nat),
      List.Perm (wgGroups (floodFrom deps revert tw nft len k rel wg ng).1)
        (wgGroups wg ++ Gs) ∧
      (floodFrom deps revert tw nft len k rel wg ng).2 = ng + Gs.length ∧
      Gs.flatten.Nodup ∧
      (∀ x, x ∈ Gs.flatten ↔ ∃ i, i < k ∧ rel.getD i false = true ∧
        x = i + nft) := by
  intro k
  induction k with
  | zero =>
    intro rel wg ng hlen hhi
    refine ⟨[], by simp [floodFrom], by simp [floodFrom], List.nodup_nil,
      fun x => by simp⟩
  | succ k ih =>
    intro rel wg ng hlen hhi
    by_cases hr : rel.getD k false
    · have hk : k < rel.length := getD_false_lt_length rel k hr
      have hstep : floodFrom deps revert tw nft len (k + 1) rel wg ng =
          floodFrom deps revert tw nft len k
            (bfs deps revert nft (tw.getD k 0) (len + 1) [k]
              (rel.set k false) [] 0).2.1
            (wgInsert
              (bfs deps revert nft (tw.getD k 0) (len + 1) [k]
                (rel.set k false) [] 0).2.2
              (bfs deps revert nft (tw.getD k 0) (len + 1) [k]
                (rel.set k false) [] 0).1 wg)
            (ng + 1) := by
        rw [floodFrom, if_pos hr]
      obtain ⟨B1, B2, A, hA1, hA2, hA3, hA4⟩ :=
        bfs_spec deps revert nft (tw.getD k 0) (len + 1) [k]
          (rel.set k false) [] 0
          (List.nodup_singleton k)
          (by
            intro i hi
            rcases List.mem_singleton.mp hi with rfl
            exact getD_set_self _ _ _ _ hk)
          (by
            intro i hi
            rcases List.mem_singleton.mp hi with rfl
            rw [List.length_set]
            exact hk)
          (by
            have hc := count_true_set_false rel k hr
            have hle : rel.count true ≤ rel.length := List.count_le_length _ _
            simp only [List.length_singleton]
            omega)
      have hrellen : (bfs deps revert nft (tw.getD k 0) (len + 1) [k]
          (rel.set k false) [] 0).2.1.length = len := by
        rw [B1, List.length_set, hlen]
      have hsetchar : ∀ i, (rel.set k false).getD i false = true ↔
          (rel.getD i false = true ∧ i ≠ k) := by
        intro i
        by_cases hik : i = k
        · subst hik
          rw [getD_set_self _ _ _ _ hk]
          simp
        · rw [getD_set_ne _ _ _ _ _ (fun h => hik h.symm)]
          simp [hik]
      have hhi' : ∀ j, k ≤ j →
          (bfs deps revert nft (tw.getD k 0) (len + 1) [k]
            (rel.set k false) [] 0).2.1.getD j false = false := by
        intro j hj
        cases hbj : (bfs deps revert nft (tw.getD k 0) (len + 1) [k]
            (rel.set k false) [] 0).2.1.getD j false
        · rfl
        · have h2 := B2 j hbj
          rw [hsetchar j] at h2
          have h3 : k + 1 ≤ j := by
            rcases Nat.lt_or_ge j (k + 1) with h | h
            · have : j = k := by omega
              exact absurd this h2.2
            · exact h
          rw [hhi j h3] at h2
          exact absurd h2.1 (by simp)
      obtain ⟨Gs', hGs1, hGs2, hGs3, hGs4⟩ :=
        ih (bfs deps revert nft (tw.getD k 0) (len + 1) [k]
            (rel.set k false) [] 0).2.1
          (wgInsert
            (bfs deps revert nft (tw.getD k 0) (len + 1) [k]
              (rel.set k false) [] 0).2.2
            (bfs deps revert nft (tw.getD k 0) (len + 1) [k]
              (rel.set k false) [] 0).1 wg)
          (ng + 1) hrellen
          (fun j hj => hhi' j hj)
      have hr1 : (bfs deps revert nft (tw.getD k 0) (len + 1) [k]
          (rel.set k false) [] 0).1 = A.map (fun i => i + nft) := by
        rw [hA1]; rfl
      refine ⟨A.map (fun i => i + nft) :: Gs', ?_, ?_, ?_, ?_⟩
      · rw [hstep]
        refine List.Perm.trans hGs1 ?_
        have hins := wgInsert_groups_perm
          (bfs deps revert nft (tw.getD k 0) (len + 1) [k]
            (rel.set k false) [] 0).2.2
          (bfs deps revert nft (tw.getD k 0) (len + 1) [k]
            (rel.set k false) [] 0).1 wg
        refine List.Perm.trans (List.Perm.append_right Gs' hins) ?_
        rw [List.append_assoc, hr1, List.singleton_append]
      · rw [hstep, hGs2, List.length_cons]
        omega
      · rw [List.flatten_cons]
        refine List.Nodup.append ?_ hGs3 ?_
        · refine List.Nodup.map ?_ hA2
          intro a b hab
          have hab' : a + nft = b + nft := hab
          omega
        · intro x hx1 hx2
          obtain ⟨i, hiA, rfl⟩ := List.mem_map.mp hx1
          obtain ⟨i', hi'1, hi'2, hi'3⟩ := (hGs4 _).mp hx2
          have hi'3' : i + nft = i' + nft := hi'3
          have hii : i = i' := by omega
          subst hii
          rcases (hA4 i).mp hiA with hik | ⟨hset, hfin⟩
          · rcases List.mem_singleton.mp hik with rfl
            have := B2 i hi'2
            rw [getD_set_self _ _ _ _ hk] at this
            cases this
          · rw [hi'2] at hfin
            cases hfin
      · intro x
        rw [List.flatten_cons, List.mem_append]
        constructor
        · rintro (hx | hx)
          · obtain ⟨i, hiA, rfl⟩ := List.mem_map.mp hx
            rcases (hA4 i).mp hiA with hik | ⟨hset, hfin⟩
            · rcases List.mem_singleton.mp hik with rfl
              exact ⟨i, Nat.lt_succ_self i, hr, rfl⟩
            · rw [hsetchar i] at hset
              have hilt : i < k + 1 := by
                rcases Nat.lt_or_ge i (k + 1) with h | h
                · exact h
                · rw [hhi i h] at hset
                  exact absurd hset.1 (by simp)
              exact ⟨i, hilt, hset.1, rfl⟩
          · obtain ⟨i, hi1, hi2, hi3⟩ := (hGs4 _).mp hx
            have hset := B2 i hi2
            rw [hsetchar i] at hset
            exact ⟨i, by omega, hset.1, hi3⟩
        · rintro ⟨i, hi1, hi2, rfl⟩
          by_cases hik : i = k
          · subst hik
            refine Or.inl (List.mem_map.mpr ⟨i, ?_, rfl⟩)
            exact (hA4 i).mpr (Or.inl (List.mem_singleton.mpr rfl))
          · have hset : (rel.set k false).getD i false = true :=
              (hsetchar i).mpr ⟨hi2, hik⟩
            cases hbi : (bfs deps revert nft (tw.getD k 0) (len + 1) [k]
                (rel.set k false) [] 0).2.1.getD i false
            · refine Or.inl (List.mem_map.mpr ⟨i, ?_, rfl⟩)
              exact (hA4 i).mpr (Or.inr ⟨hset, hbi⟩)
            · refine Or.inr ((hGs4 _).mpr ⟨i, by omega, hbi, rfl⟩)
    · have hstep : floodFrom deps revert tw nft len (k + 1) rel wg ng =
          floodFrom deps revert tw nft len k rel wg ng := by
        rw [floodFrom, if_neg hr]
      obtain ⟨Gs, hGs1, hGs2, hGs3, hGs4⟩ := ih rel wg ng hlen
        (by
          intro j hj
          rcases Nat.lt_or_ge j (k + 1) with h | h
          · have hjk : j = k := by omega
            subst hjk
            cases hb : rel.getD j false
            · rfl
            · exact absurd hb hr
          · exact hhi j h)
      refine ⟨Gs, by rw [hstep]; exact hGs1, by rw [hstep]; exact hGs2, hGs3,
        fun x => ?_⟩
      rw [hGs4 x]
      constructor
      · rintro ⟨i, hi1, hi2, hi3⟩
        exact ⟨i, by omega, hi2, hi3⟩
      · rintro ⟨i, hi1, hi2, hi3⟩
        have hik : i ≠ k := by
          rintro rfl
          exact hr hi2
        exact ⟨i, by omega, hi2, hi3⟩

/-! ## Scan-phase characterization -/

/-- Tail index `i` is the dependency of some transaction at tail index `≥ k`. -/
def MarkedByAbove (deps : List (List Nat)) (nft k i : Nat) : Prop :=
  ∃ j, k ≤ j ∧ j < deps.length ∧ (i + nft) ∈ deps.getD j []

/-- Tail index `i` forms a singleton group: it has no dependencies and no
later transaction depends on it (the scan visits indices descending, so only
marks from strictly later indices can precede its visit). -/
def IsSingletonIdx (deps : List (List Nat)) (nft i : Nat) : Prop :=
  deps.getD i [] = [] ∧ ¬ MarkedByAbove deps nft (i + 1) i

/-- Invariant of the scan after processing all tail indices `≥ k`. -/
structure ScanInv (deps : List (List Nat)) (nft len k : Nat)
    (st : ScanResult) : Prop where
  rel_len : st.rel.length = len
  rel_char : ∀ i, st.rel.getD i false = true ↔
    (i < len ∧ ((k ≤ i ∧ deps.getD i [] ≠ []) ∨ MarkedByAbove deps nft k i))
  singles_mem : ∀ x, x ∈ st.singles.flatten ↔
    ∃ i, k ≤ i ∧ i < len ∧ IsSingletonIdx deps nft i ∧ x = i + nft
  singles_nodup : st.singles.flatten.Nodup

theorem markedByAbove_succ_iff (deps : List (List Nat)) (nft k i : Nat) :
    MarkedByAbove deps nft k i ↔
      MarkedByAbove deps nft (k + 1) i ∨
      (k < deps.length ∧ (i + nft) ∈ deps.getD k []) := by
  constructor
  · rintro ⟨j, hj1, hj2, hj3⟩
    rcases Nat.eq_or_lt_of_le hj1 with rfl | h
    · exact Or.inr ⟨hj2, hj3⟩
    · exact Or.inl ⟨j, h, hj2, hj3⟩
  · rintro (⟨j, hj1, hj2, hj3⟩ | ⟨h1, h2⟩)
    · exact ⟨j, by omega, hj2, hj3⟩
    · exact ⟨k, Nat.le_refl k, h1, h2⟩

theorem scanDepFold_relchar (nft len txj : Nat) (l : List Nat)
    (st st' : ScanResult)
    (h : l.foldl (scanDepStep nft len txj) (some st) = some st') :
    (∀ d ∈ l, nft ≤ d ∧ d < nft + len) ∧
    (∀ i, st'.rel.getD i false = true ↔
      (st.rel.getD i false = true ∨
        ((i + nft) ∈ l ∧ i < st.rel.length))) := by
  induction l generalizing st with
  | nil =>
    cases h
    refine ⟨by simp, fun i => ?_⟩
    simp
  | cons x xs ih =>
    rw [List.foldl_cons] at h
    by_cases hc : x < nft ∨ nft + len ≤ x
    · rw [show scanDepStep nft len txj (some st) x = none by
        simp [scanDepStep, hc], scanDepFold_none] at h
      cases h
    · rw [show scanDepStep nft len txj (some st) x =
          some { st with
            revert := st.revert.set (x - nft)
              (st.revert.getD (x - nft) [] ++ [txj]),
            rel := st.rel.set (x - nft) true } by
        simp [scanDepStep, hc]] at h
      obtain ⟨hr1, hr2⟩ := ih _ h
      push_neg at hc
      refine ⟨?_, fun i => ?_⟩
      · intro d hd
        rcases List.mem_cons.mp hd with rfl | hd'
        · omega
        · exact hr1 d hd'
      · rw [hr2 i]
        show (st.rel.set (x - nft) true).getD i false = true ∨
          (i + nft ∈ xs ∧ i < (st.rel.set (x - nft) true).length) ↔ _
        rw [getD_set_true_char, List.length_set, List.mem_cons]
        constructor
        · rintro ((h1 | ⟨rfl, h2⟩) | ⟨h1, h2⟩)
          · exact Or.inl h1
          · exact Or.inr ⟨Or.inl (by omega), h2⟩
          · exact Or.inr ⟨Or.inr h1, h2⟩
        · rintro (h1 | ⟨(h1 | h1), h2⟩)
          · exact Or.inl (Or.inl h1)
          · refine Or.inl (Or.inr ⟨by omega, by omega⟩)
          · exact Or.inr ⟨h1, h2⟩

theorem scanStep_inv (deps : List (List Nat)) (nft len k : Nat)
    (st st' : ScanResult) (hk : k < len) (hlen : len = deps.length)
    (hInv : ScanInv deps nft len (k + 1) st)
    (h : scanStep deps nft len k st = some st') :
    ScanInv deps nft len k st' := by
  unfold scanStep at h
  by_cases he : ((deps.getD k []).isEmpty : Bool)
  · have hke : deps.getD k [] = [] := by
      rwa [List.isEmpty_iff] at he
    rw [if_pos he] at h
    have hrelchar : ∀ (rel : List Bool),
        (∀ i, rel.getD i false = true ↔
          (i < len ∧ ((k + 1 ≤ i ∧ deps.getD i [] ≠ []) ∨
            MarkedByAbove deps nft (k + 1) i))) →
        ∀ i, rel.getD i false = true ↔
          (i < len ∧ ((k ≤ i ∧ deps.getD i [] ≠ []) ∨
            MarkedByAbove deps nft k i)) := by
      intro rel hchar i
      rw [hchar i]
      constructor
      · rintro ⟨h1, h2 | h2⟩
        · exact ⟨h1, Or.inl ⟨by omega, h2.2⟩⟩
        · exact ⟨h1, Or.inr ((markedByAbove_succ_iff ..).mpr (Or.inl h2))⟩
      · rintro ⟨h1, h2 | h2⟩
        · rcases Nat.eq_or_lt_of_le h2.1 with rfl | hki
          · exact absurd hke h2.2
          · exact ⟨h1, Or.inl ⟨hki, h2.2⟩⟩
        · rcases (markedByAbove_succ_iff ..).mp h2 with h3 | h3
          · exact ⟨h1, Or.inr h3⟩
          · rw [hke] at h3
            cases h3.2
    by_cases hr : st.rel.getD k false
    · rw [if_pos hr] at h
      cases h
      have hM : MarkedByAbove deps nft (k + 1) k := by
        have := (hInv.rel_char k).mp hr
        rcases this.2 with h2 | h2
        · omega
        · exact h2
      refine ⟨hInv.rel_len, hrelchar _ hInv.rel_char, fun x => ?_,
        hInv.singles_nodup⟩
      rw [hInv.singles_mem x]
      constructor
      · rintro ⟨i, hi1, hi2, hi3, hi4⟩
        exact ⟨i, by omega, hi2, hi3, hi4⟩
      · rintro ⟨i, hi1, hi2, hi3, hi4⟩
        rcases Nat.eq_or_lt_of_le hi1 with rfl | hki
        · exact absurd hM hi3.2
        · exact ⟨i, hki, hi2, hi3, hi4⟩
    · rw [if_neg hr] at h
      cases h
      have hnM : ¬ MarkedByAbove deps nft (k + 1) k := by
        intro hM
        have := (hInv.rel_char k).mpr ⟨hk, Or.inr hM⟩
        rw [this] at hr
        exact hr rfl
      refine ⟨hInv.rel_len, hrelchar _ hInv.rel_char, fun x => ?_, ?_⟩
      · show x ∈ (st.singles ++ [[k + nft]]).flatten ↔ _
        rw [List.flatten_append]
        simp only [List.flatten_cons, List.flatten_nil, List.append_nil,
          List.mem_append, List.mem_singleton]
        rw [hInv.singles_mem x]
        constructor
        · rintro (⟨i, hi1, hi2, hi3, hi4⟩ | rfl)
          · exact ⟨i, by omega, hi2, hi3, hi4⟩
          · exact ⟨k, Nat.le_refl k, hk, ⟨hke, hnM⟩, rfl⟩
        · rintro ⟨i, hi1, hi2, hi3, hi4⟩
          rcases Nat.eq_or_lt_of_le hi1 with rfl | hki
          · exact Or.inr hi4
          · exact Or.inl ⟨i, hki, hi2, hi3, hi4⟩
      · show ((st.singles ++ [[k + nft]]).flatten).Nodup
        rw [List.flatten_append]
        simp only [List.flatten_cons, List.flatten_nil, List.append_nil]
        rw [List.nodup_append]
        refine ⟨hInv.singles_nodup, List.nodup_singleton _, ?_⟩
        intro x hx1 hx2
        obtain ⟨i, hi1, hi2, hi3, rfl⟩ := (hInv.singles_mem x).mp hx1
        rw [List.mem_singleton] at hx2
        omega
  · have hke : deps.getD k [] ≠ [] := by
      intro hc
      rw [hc] at he
      exact he rfl
    rw [if_neg he] at h
    obtain ⟨hng, hsingles, hrlen, hmono⟩ := scanDepFold_spec _ _ _ _ _ _ h
    obtain ⟨hrange, hchar⟩ := scanDepFold_relchar _ _ _ _ _ _ h
    have hmidlen : (st.rel.set k true).length = len := by
      rw [List.length_set, hInv.rel_len]
    refine ⟨by rw [hrlen, hmidlen], fun i => ?_, fun x => ?_, ?_⟩
    · rw [hchar i, getD_set_true_char, hInv.rel_char i, hmidlen,
        hInv.rel_len]
      constructor
      · rintro ((⟨h1, h2 | h2⟩ | ⟨rfl, h2⟩) | ⟨h1, h2⟩)
        · exact ⟨h1, Or.inl ⟨by omega, h2.2⟩⟩
        · exact ⟨h1, Or.inr ((markedByAbove_succ_iff ..).mpr (Or.inl h2))⟩
        · exact ⟨h2, Or.inl ⟨Nat.le_refl _, hke⟩⟩
        · exact ⟨h2, Or.inr ((markedByAbove_succ_iff ..).mpr
            (Or.inr ⟨by omega, h1⟩))⟩
      · rintro ⟨h1, h2 | h2⟩
        · rcases Nat.eq_or_lt_of_le h2.1 with rfl | hki
          · exact Or.inl (Or.inr ⟨rfl, h1⟩)
          · exact Or.inl (Or.inl ⟨h1, Or.inl ⟨hki, h2.2⟩⟩)
        · rcases (markedByAbove_succ_iff ..).mp h2 with h3 | h3
          · exact Or.inl (Or.inl ⟨h1, Or.inr h3⟩)
          · exact Or.inr ⟨h3.2, h1⟩
    · rw [hsingles, hInv.singles_mem x]
      constructor
      · rintro ⟨i, hi1, hi2, hi3, hi4⟩
        exact ⟨i, by omega, hi2, hi3, hi4⟩
      · rintro ⟨i, hi1, hi2, hi3, hi4⟩
        rcases Nat.eq_or_lt_of_le hi1 with rfl | hki
        · exact absurd hi3.1 hke
        · exact ⟨i, hki, hi2, hi3, hi4⟩
    · rw [hsingles]
      exact hInv.singles_nodup

theorem scanFrom_inv (deps : List (List Nat)) (nft len : Nat)
    (hlen : len = deps.length) :
    ∀ (k : Nat) (st st' : ScanResult), k ≤ len →
    ScanInv deps nft len k st →
    scanFrom deps nft len k st = some st' →
    ScanInv deps nft len 0 st' := by
  intro k
  induction k with
  | zero =>
    intro st st' _ hInv h
    cases h
    exact hInv
  | succ k ih =>
    intro st st' hk hInv h
    rw [scanFrom, Option.bind_eq_some] at h
    obtain ⟨st1, hst1, hrest⟩ := h
    exact ih st1 st' (by omega)
      (scanStep_inv deps nft len k st st1 (by omega) hlen hInv hst1) hrest

theorem scanPhase_inv (deps : List (List Nat)) (nft : Nat)
    (sc : ScanResult) (h : scanPhase deps nft = some sc) :
    ScanInv deps nft deps.length 0 sc := by
  unfold scanPhase at h
  refine scanFrom_inv deps nft deps.length rfl deps.length _ sc
    (Nat.le_refl _) ?_ h
  refine ⟨List.length_replicate .., fun i => ?_, fun x => ?_, List.nodup_nil⟩
  · rw [getD_replicate_eq]
    constructor
    · intro hx
      split at hx <;> cases hx
    · rintro ⟨h1, h2 | h2⟩
      · omega
      · obtain ⟨j, hj1, hj2, _⟩ := h2
        omega
  · simp only [List.flatten_nil, List.not_mem_nil, false_iff]
    rintro ⟨i, hi1, hi2, _, _⟩
    omega

/-! ## Chunk tiling (`fork_join_util` splits and the fast path) -/

theorem chunkStart_succ (n np i : Nat) :
    chunkStart n np (i + 1) = chunkStart n np i + chunkSize n np i := by
  unfold chunkStart chunkSize
  rw [Nat.mul_succ]
  by_cases h : i < n % np
  · rw [if_pos h]
    omega
  · rw [if_neg h]
    omega

theorem chunkStart_last (n np : Nat) (h : 0 < np) : chunkStart n np np = n := by
  unfold chunkStart
  have h1 : n % np < np := Nat.mod_lt _ h
  have h2 : np * (n / np) + n % np = n := Nat.div_add_mod n np
  have h3 : n / np * np = np * (n / np) := Nat.mul_comm _ _
  omega

theorem chunkStart_mono (n np : Nat) :
    ∀ a b, a ≤ b → chunkStart n np a ≤ chunkStart n np b := by
  intro a b hab
  induction b with
  | zero =>
    have ha : a = 0 := by omega
    rw [ha]
  | succ b ih =>
    rcases Nat.eq_or_lt_of_le hab with rfl | h
    · exact Nat.le_refl _
    · refine Nat.le_trans (ih (by omega)) ?_
      rw [chunkStart_succ]
      omega

theorem chunkEnd_le_start (n np i j : Nat) (hij : i < j) :
    chunkStart n np i + chunkSize n np i ≤ chunkStart n np j := by
  rw [← chunkStart_succ]
  exact chunkStart_mono n np (i + 1) j hij

theorem slices_flatten_take {α : Type} (l : List α) (np : Nat) :
    ∀ m, ((List.range m).map (fun i =>
      (l.drop (chunkStart l.length np i)).take
        (chunkSize l.length np i))).flatten =
      l.take (chunkStart l.length np m) := by
  intro m
  induction m with
  | zero => simp [chunkStart]
  | succ m ih =>
    rw [List.range_succ, List.map_append, List.flatten_append, ih]
    simp only [List.map_cons, List.map_nil, List.flatten_cons,
      List.flatten_nil, List.append_nil]
    rw [chunkStart_succ, List.take_add]

theorem slices_flatten {α : Type} (l : List α) (np : Nat) (h : 0 < np) :
    ((List.range np).map (fun i =>
      (l.drop (chunkStart l.length np i)).take
        (chunkSize l.length np i))).flatten = l := by
  rw [slices_flatten_take l np np, chunkStart_last _ _ h, List.take_length]

theorem ranges_flatten_aux (nft n np : Nat) :
    ∀ m, ((List.range m).map (fun i =>
      List.range' (chunkStart n np i + nft) (chunkSize n np i))).flatten =
      List.range' nft (chunkStart n np m) := by
  intro m
  induction m with
  | zero => simp [chunkStart]
  | succ m ih =>
    rw [List.range_succ, List.map_append, List.flatten_append, ih]
    simp only [List.map_cons, List.map_nil, List.flatten_cons,
      List.flatten_nil, List.append_nil]
    rw [chunkStart_succ]
    rw [show chunkStart n np m + nft = nft + chunkStart n np m by omega]
    rw [List.range'_append_1]
    rw [Nat.add_comm (chunkSize n np m) (chunkStart n np m)]

theorem ranges_flatten (nft n np : Nat) (h : 0 < np) :
    ((List.range np).map (fun i =>
      List.range' (chunkStart n np i + nft) (chunkSize n np i))).flatten =
    List.range' nft n := by
  rw [ranges_flatten_aux, chunkStart_last _ _ h]

/-! ## Distribution helpers -/

theorem foldl_sinsertAll_mem (gs : List (List Nat)) :
    ∀ (p : List Nat) (y : Nat),
    y ∈ gs.foldl (fun p g => sinsertAll g p) p ↔ y ∈ gs.flatten ∨ y ∈ p := by
  induction gs with
  | nil => intro p y; simp
  | cons g gs ih =>
    intro p y
    rw [List.foldl_cons, ih, sinsertAll_mem, List.flatten_cons,
      List.mem_append]
    tauto

theorem foldl_sinsertAll_sorted (gs : List (List Nat)) :
    ∀ (p : List Nat), List.Sorted (· < ·) p →
    List.Sorted (· < ·) (gs.foldl (fun p g => sinsertAll g p) p) := by
  induction gs with
  | nil => intro p hp; exact hp
  | cons g gs ih => intro p hp; exact ih _ (sinsertAll_sorted g p hp)

theorem nodup_flatten_disjoint {α : Type} (L : List (List α))
    (h : L.flatten.Nodup) (i j : Nat) (hij : i < j) (hj : j < L.length)
    (t : α) (ht : t ∈ L.getD i []) : t ∉ L.getD j [] := by
  rw [List.nodup_flatten] at h
  have hpw := h.2
  rw [List.pairwise_iff_getElem] at hpw
  have hd := hpw i j (by omega) hj hij
  intro htj
  rw [List.getD_eq_getElem?_getD, List.getElem?_eq_getElem (by omega)] at ht
  rw [List.getD_eq_getElem?_getD, List.getElem?_eq_getElem hj] at htj
  exact hd ht htj

theorem distributeSingles_getD (groups : List (List Nat)) (np i : Nat)
    (hi : i < np) :
    (distributeSingles groups np).getD i [] =
      ((groups.drop (chunkStart groups.length np i)).take
        (chunkSize groups.length np i)).foldl (fun p g => sinsertAll g p)
        [] := by
  unfold distributeSingles
  rw [getD_map_range _ _ _ _ hi]

theorem distributeSingles_mem (groups : List (List Nat)) (np : Nat)
    (hnp : 0 < np) (t : Nat) :
    (∃ i, i < np ∧ t ∈ (distributeSingles groups np).getD i []) ↔
      t ∈ groups.flatten := by
  constructor
  · rintro ⟨i, hi, ht⟩
    rw [distributeSingles_getD _ _ _ hi, foldl_sinsertAll_mem] at ht
    rcases ht with ht | ht
    · rw [List.mem_flatten] at ht
      obtain ⟨g, hg, htg⟩ := ht
      rw [List.mem_flatten]
      exact ⟨g, List.mem_of_mem_drop (List.mem_of_mem_take hg), htg⟩
    · cases ht
  · intro ht
    rw [← slices_flatten groups np hnp] at ht
    rw [List.mem_flatten] at ht
    obtain ⟨gl, hgl, htgl⟩ := ht
    rw [List.mem_flatten] at hgl
    obtain ⟨sl, hsl, hglsl⟩ := hgl
    rw [List.mem_map] at hsl
    obtain ⟨i, hi, rfl⟩ := hsl
    rw [List.mem_range] at hi
    refine ⟨i, hi, ?_⟩
    rw [distributeSingles_getD _ _ _ hi, foldl_sinsertAll_mem]
    exact Or.inl (List.mem_flatten.mpr ⟨gl, hglsl, htgl⟩)

theorem distributeSingles_disjoint (groups : List (List Nat)) (np : Nat)
    (hnp : 0 < np) (hnd : groups.flatten.Nodup) (i j : Nat) (hij : i < j)
    (hj : j < np) (t : Nat)
    (hti : t ∈ (distributeSingles groups np).getD i []) :
    t ∉ (distributeSingles groups np).getD j [] := by
  intro htj
  rw [distributeSingles_getD _ _ _ (by omega), foldl_sinsertAll_mem] at hti
  rw [distributeSingles_getD _ _ _ hj, foldl_sinsertAll_mem] at htj
  rcases hti with hti | hti
  on_goal 2 => cases hti
  rcases htj with htj | htj
  on_goal 2 => cases htj
  have hflat : ((List.range np).map (fun i =>
      ((groups.drop (chunkStart groups.length np i)).take
        (chunkSize groups.length np i)).flatten)).flatten =
      groups.flatten := by
    have e1 : (List.range np).map (fun i =>
        ((groups.drop (chunkStart groups.length np i)).take
          (chunkSize groups.length np i)).flatten) =
        ((List.range np).map (fun i =>
          (groups.drop (chunkStart groups.length np i)).take
            (chunkSize groups.length np i))).map List.flatten := by
      rw [List.map_map]
      rfl
    rw [e1, ← List.flatten_flatten, slices_flatten groups np hnp]
  have hnd2 : (((List.range np).map (fun i =>
      ((groups.drop (chunkStart groups.length np i)).take
        (chunkSize groups.length np i)).flatten)).flatten).Nodup := by
    rw [hflat]; exact hnd
  have hdisj := nodup_flatten_disjoint _ hnd2 i j hij
    (by rw [List.length_map, List.length_range]; exact hj) t
  rw [getD_map_range _ _ _ _ (by omega : i < np),
    getD_map_range _ _ _ _ hj] at hdisj
  exact hdisj hti htj

theorem distributeSingles_sorted (groups : List (List Nat)) (np : Nat)
    (p : List Nat) (hp : p ∈ distributeSingles groups np) :
    List.Sorted (· < ·) p := by
  unfold distributeSingles at hp
  rw [List.mem_map] at hp
  obtain ⟨i, _, rfl⟩ := hp
  exact foldl_sinsertAll_sorted _ _ (List.sorted_nil)

theorem getD_mem {α : Type} (l : List α) (n : Nat) (d : α)
    (h : n < l.length) : l.getD n d ∈ l := by
  rw [List.getD_eq_getElem?_getD, List.getElem?_eq_getElem h]
  exact List.getElem_mem h

/-- The jobs processed by the heap loop, in processing order: each group of
each bucket, paired with its bucket's weight. -/
def bucketJobs (buckets : List (Nat × List (List Nat))) :
    List (Nat × List Nat) :=
  buckets.flatMap (fun b => b.2.map (fun g => (b.1, g)))

theorem distFold_eq_jobs (buckets : List (Nat × List (List Nat))) :
    ∀ (st : List (List Nat) × List (Nat × Nat)),
    buckets.foldl (fun st b => b.2.foldl (fun st g => distStep b.1 st g) st)
      st =
    (bucketJobs buckets).foldl (fun st j => distStep j.1 st j.2) st := by
  induction buckets with
  | nil => intro st; rfl
  | cons b rest ih =>
    intro st
    rw [List.foldl_cons]
    rw [ih]
    show _ = (b.2.map (fun g => (b.1, g)) ++ bucketJobs rest).foldl
      (fun st j => distStep j.1 st j.2) st
    rw [List.foldl_append, List.foldl_map]

/-- Invariant carried through the heap distribution: partitions as sorted
sets, pairwise disjoint, whose combined membership is exactly `base`. -/
def PartsInv (np : Nat) (base : List Nat) (parts : List (List Nat)) : Prop :=
  parts.length = np ∧
  (∀ p ∈ parts, List.Sorted (· < ·) p) ∧
  (∀ i j, i < j → j < np → ∀ t, t ∈ parts.getD i [] →
    t ∉ parts.getD j []) ∧
  (∀ t, (∃ i, i < np ∧ t ∈ parts.getD i []) ↔ t ∈ base)

theorem distJobs_inv (np : Nat) (jobs : List (Nat × List Nat)) :
    ∀ (parts : List (List Nat)) (heap : List (Nat × Nat)) (base : List Nat),
    PartsInv np base parts →
    (∀ e ∈ heap, e.2 < np) → heap ≠ [] →
    (base ++ (jobs.map Prod.snd).flatten).Nodup →
    PartsInv np (base ++ (jobs.map Prod.snd).flatten)
      (jobs.foldl (fun st j => distStep j.1 st j.2) (parts, heap)).1 := by
  induction jobs with
  | nil =>
    intro parts heap base hp _ _ _
    simpa using hp
  | cons job jobs ih =>
    intro parts heap base hp hh hne hnd
    obtain ⟨w, g⟩ := job
    cases heap with
    | nil => exact absurd rfl hne
    | cons hd hrest =>
      obtain ⟨hw, hi⟩ := hd
      have hhi : hi < np := hh (hw, hi) (List.mem_cons_self _ _)
      have hlen : parts.length = np := hp.1
      have hstep : distStep w (parts, (hw, hi) :: hrest) g =
          (parts.set hi (sinsertAll g (parts.getD hi [])),
           heapPush (hw + w, hi) hrest) := rfl
      rw [List.foldl_cons]
      rw [show distStep (w, g).1 (parts, (hw, hi) :: hrest) (w, g).2 =
        (parts.set hi (sinsertAll g (parts.getD hi [])),
          heapPush (hw + w, hi) hrest) from rfl]
      -- facts about the old partitions
      have hold_sorted : List.Sorted (· < ·) (parts.getD hi []) := by
        refine hp.2.1 _ (getD_mem _ _ _ ?_)
        omega
      have hbase_disj_g : ∀ t, t ∈ g → t ∉ base := by
        intro t htg htb
        rw [List.nodup_append] at hnd
        refine hnd.2.2 htb ?_
        simp only [List.map_cons, List.flatten_cons, List.mem_append]
        exact Or.inl htg
      have hgetD : ∀ i, (parts.set hi (sinsertAll g (parts.getD hi []))).getD
          i [] = if i = hi then sinsertAll g (parts.getD hi [])
          else parts.getD i [] := by
        intro i
        by_cases hih : i = hi
        · subst hih
          rw [if_pos rfl, getD_set_self _ _ _ _ (by omega)]
        · rw [if_neg hih, getD_set_ne _ _ _ _ _ (fun h => hih h.symm)]
      have hmem_base : ∀ i, i < np → ∀ t, t ∈ parts.getD i [] → t ∈ base := by
        intro i hilt t ht
        exact (hp.2.2.2 t).mp ⟨i, hilt, ht⟩
      have hp' : PartsInv np (base ++ g)
          (parts.set hi (sinsertAll g (parts.getD hi []))) := by
        refine ⟨by rw [List.length_set]; exact hlen, ?_, ?_, ?_⟩
        · intro p hpmem
          rcases List.mem_or_eq_of_mem_set hpmem with hmem | rfl
          · exact hp.2.1 p hmem
          · exact sinsertAll_sorted _ _ hold_sorted
        · intro i j hij hj t hti htj
          rw [hgetD] at hti htj
          by_cases hih : i = hi
          · rw [if_pos hih] at hti
            rw [if_neg (by omega)] at htj
            rw [sinsertAll_mem] at hti
            rcases hti with hti | hti
            · exact hbase_disj_g t hti (hmem_base j hj t htj)
            · subst hih
              exact hp.2.2.1 i j hij hj t hti htj
          · rw [if_neg hih] at hti
            by_cases hjh : j = hi
            · rw [if_pos hjh] at htj
              rw [sinsertAll_mem] at htj
              rcases htj with htj | htj
              · exact hbase_disj_g t htj (hmem_base i (by omega) t hti)
              · subst hjh
                exact hp.2.2.1 i j hij hj t hti htj
            · rw [if_neg hjh] at htj
              exact hp.2.2.1 i j hij hj t hti htj
        · intro t
          constructor
          · rintro ⟨i, hilt, hti⟩
            rw [hgetD] at hti
            by_cases hih : i = hi
            · rw [if_pos hih, sinsertAll_mem] at hti
              rcases hti with hti | hti
              · exact List.mem_append.mpr (Or.inr hti)
              · exact List.mem_append.mpr
                  (Or.inl (hmem_base hi hhi t hti))
            · rw [if_neg hih] at hti
              exact List.mem_append.mpr
                (Or.inl (hmem_base i hilt t hti))
          · intro ht
            rcases List.mem_append.mp ht with ht | ht
            · obtain ⟨i, hilt, hti⟩ := (hp.2.2.2 t).mpr ht
              refine ⟨i, hilt, ?_⟩
              rw [hgetD]
              by_cases hih : i = hi
              · rw [if_pos hih, sinsertAll_mem]
                subst hih
                exact Or.inr hti
              · rw [if_neg hih]
                exact hti
            · refine ⟨hi, hhi, ?_⟩
              rw [hgetD, if_pos rfl, sinsertAll_mem]
              exact Or.inl ht
      have hh' : ∀ e ∈ heapPush (hw + w, hi) hrest, e.2 < np := by
        intro e he
        rcases (heapPush_mem _ _ _).mp he with rfl | he'
        · exact hhi
        · exact hh e (List.mem_cons_of_mem _ he')
      have hnd' : ((base ++ g) ++ (jobs.map Prod.snd).flatten).Nodup := by
        rw [List.append_assoc]
        simpa using hnd
      have := ih _ _ _ hp' hh' (heapPush_ne_nil _ _) hnd'
      rw [show base ++ ((((w, g) :: jobs).map Prod.snd).flatten) =
        (base ++ g) ++ ((jobs.map Prod.snd).flatten) by
          simp [List.append_assoc]]
      exact this

/-! ## Decomposing the map into the weight-1 bucket and the rest -/

theorem wg_decomp (wg : WeightedGroup) (hs : wgKeysSorted wg) :
    List.Perm (wgGroups wg)
      ((((wg.find? (fun b => b.1 == RAW_TRANSFER_WEIGHT)).map Prod.snd).getD
        []) ++
        wgGroups (wg.filter (fun b => b.1 != RAW_TRANSFER_WEIGHT))) := by
  induction wg with
  | nil => simp [wgGroups]
  | cons b rest ih =>
    obtain ⟨k, gs⟩ := b
    unfold wgKeysSorted at hs
    rw [List.map_cons, List.sorted_cons] at hs
    by_cases hk : k = RAW_TRANSFER_WEIGHT
    · rw [List.find?_cons_of_pos _ (by simp [hk])]
      have hfil : ((k, gs) :: rest).filter (fun b => b.1 != RAW_TRANSFER_WEIGHT)
          = rest := by
        rw [List.filter_cons_of_neg (by simp [hk])]
        refine List.filter_eq_self.mpr ?_
        intro b hb
        have hbk : k < b.1 := hs.1 b.1 (List.mem_map.mpr ⟨b, hb, rfl⟩)
        simp only [bne_iff_ne, ne_eq, decide_eq_true_eq]
        omega
      rw [hfil]
      show List.Perm (gs ++ wgGroups rest) (gs ++ wgGroups rest)
      exact List.Perm.refl _
    · rw [List.find?_cons_of_neg _ (by simp [hk])]
      rw [List.filter_cons_of_pos (by simp [hk])]
      show List.Perm (gs ++ wgGroups rest)
        ((((rest.find? (fun b => b.1 == RAW_TRANSFER_WEIGHT)).map
          Prod.snd).getD []) ++ (gs ++ wgGroups (rest.filter
            (fun b => b.1 != RAW_TRANSFER_WEIGHT))))
      refine List.Perm.trans (List.Perm.append_left gs (ih hs.2)) ?_
      rw [← List.append_assoc, ← List.append_assoc]
      exact List.Perm.append_right _ List.perm_append_comm

theorem bucketJobs_map_snd (bs : List (Nat × List (List Nat))) :
    (bucketJobs bs).map Prod.snd = wgGroups bs := by
  induction bs with
  | nil => rfl
  | cons b rest ih =>
    show ((b.2.map (fun g => (b.1, g)) ++ bucketJobs rest).map Prod.snd) = _
    rw [List.map_append, ih, List.map_map]
    show b.2.map (fun g => g) ++ _ = _
    rw [List.map_id']
    rfl

theorem wgGroups_reverse_perm (wg : WeightedGroup) :
    List.Perm (wgGroups wg.reverse) (wgGroups wg) := by
  unfold wgGroups
  refine List.Perm.flatten ?_
  rw [List.map_reverse]
  exact List.reverse_perm _

theorem foldl_heapPush_mem (f : Nat → Nat × Nat) (l : List Nat) :
    ∀ (init : List (Nat × Nat)) (e : Nat × Nat),
    e ∈ l.foldl (fun h i => heapPush (f i) h) init ↔
      e ∈ init ∨ ∃ i ∈ l, e = f i := by
  induction l with
  | nil => intro init e; simp
  | cons x xs ih =>
    intro init e
    rw [List.foldl_cons, ih, heapPush_mem]
    simp only [List.mem_cons]
    constructor
    · rintro ((rfl | h) | ⟨i, hi, rfl⟩)
      · exact Or.inr ⟨x, Or.inl rfl, rfl⟩
      · exact Or.inl h
      · exact Or.inr ⟨i, Or.inr hi, rfl⟩
    · rintro (h | ⟨i, (rfl | hi), rfl⟩)
      · exact Or.inl (Or.inr h)
      · exact Or.inl (Or.inl rfl)
      · exact Or.inr ⟨i, hi, rfl⟩

theorem foldl_heapPush_length (f : Nat → Nat × Nat) (l : List Nat) :
    ∀ (init : List (Nat × Nat)),
    (l.foldl (fun h i => heapPush (f i) h) init).length =
      init.length + l.length := by
  induction l with
  | nil => intro init; rfl
  | cons x xs ih =>
    intro init
    rw [List.foldl_cons, ih, heapPush_length]
    simp only [List.length_cons]
    omega

/-- The distribution stage preserves the pool: its partitions are sorted,
pairwise disjoint, and together contain exactly the TxIds of all groups of
the map. -/
theorem distributeCore_spec (wg : WeightedGroup) (np : Nat) (hnp : 0 < np)
    (hs : wgKeysSorted wg) (hnd : ((wgGroups wg).flatten).Nodup) :
    (distributeCore wg np).1.length = np ∧
    (∀ p ∈ (distributeCore wg np).1, List.Sorted (· < ·) p) ∧
    (∀ i j, i < j → j < np → ∀ t,
      t ∈ (distributeCore wg np).1.getD i [] →
      t ∉ (distributeCore wg np).1.getD j []) ∧
    (∀ t, (∃ i, i < np ∧ t ∈ (distributeCore wg np).1.getD i []) ↔
      t ∈ (wgGroups wg).flatten) := by
  set singlesB : List (List Nat) :=
    ((wg.find? (fun b => b.1 == RAW_TRANSFER_WEIGHT)).map Prod.snd).getD []
    with hsB
  set rest : WeightedGroup :=
    wg.filter (fun b => b.1 != RAW_TRANSFER_WEIGHT) with hrestdef
  set parts0 : List (List Nat) := distributeSingles singlesB np with hp0
  set heap0 : List (Nat × Nat) := (List.range np).foldl
    (fun h i => heapPush ((parts0.getD i []).length * RAW_TRANSFER_WEIGHT, i)
      h) [] with hh0
  have hcore : distributeCore wg np =
      (bucketJobs rest.reverse).foldl (fun st j => distStep j.1 st j.2)
        (parts0, heap0) := by
    show rest.reverse.foldl
      (fun st b => b.2.foldl (fun st g => distStep b.1 st g) st)
      (parts0, heap0) = _
    exact distFold_eq_jobs _ _
  -- the combined pool, as one permutation chain
  have hperm : List.Perm
      (singlesB.flatten ++ (wgGroups rest.reverse).flatten)
      ((wgGroups wg).flatten) := by
    refine List.Perm.trans (List.Perm.append_left singlesB.flatten
      (List.Perm.flatten (wgGroups_reverse_perm rest))) ?_
    rw [← List.flatten_append]
    exact (List.Perm.flatten (wg_decomp wg hs)).symm
  have hndpool : (singlesB.flatten ++ (wgGroups rest.reverse).flatten).Nodup :=
    hperm.symm.nodup hnd
  have hnds : singlesB.flatten.Nodup := (List.nodup_append.mp hndpool).1
  have hinv0 : PartsInv np singlesB.flatten parts0 := by
    refine ⟨by rw [hp0]; exact (by simp [distributeSingles]), ?_, ?_, ?_⟩
    · intro p hp
      exact distributeSingles_sorted singlesB np p hp
    · intro i j hij hj t hti
      exact distributeSingles_disjoint singlesB np hnp hnds i j hij hj t hti
    · intro t
      exact distributeSingles_mem singlesB np hnp t
  have hheap1 : ∀ e ∈ heap0, e.2 < np := by
    intro e he
    rw [hh0, foldl_heapPush_mem] at he
    rcases he with he | ⟨i, hi, rfl⟩
    · cases he
    · rw [List.mem_range] at hi
      exact hi
  have hheap2 : heap0 ≠ [] := by
    intro hc
    have := foldl_heapPush_length
      (fun i => ((parts0.getD i []).length * RAW_TRANSFER_WEIGHT, i))
      (List.range np) []
    rw [← hh0, hc] at this
    simp at this
    omega
  have hjobs_snd : ((bucketJobs rest.reverse).map Prod.snd) =
      wgGroups rest.reverse := bucketJobs_map_snd _
  have hndfull : (singlesB.flatten ++
      (((bucketJobs rest.reverse).map Prod.snd).flatten)).Nodup := by
    rw [hjobs_snd]
    exact hndpool
  have hfin := distJobs_inv np (bucketJobs rest.reverse) parts0 heap0
    singlesB.flatten hinv0 hheap1 hheap2 hndfull
  rw [hjobs_snd] at hfin
  rw [hcore]
  refine ⟨hfin.1, hfin.2.1, hfin.2.2.1, fun t => ?_⟩
  rw [hfin.2.2.2 t]
  exact ⟨fun h => hperm.mem_iff.mp h, fun h => hperm.mem_iff.mpr h⟩

/-! ## The grouped tail is exactly the non-finalized TxId range (C1) -/

/-- The spec's `DependencyGraph` well-formedness: every stored dependency of
a tail transaction lies in the tail and points to a strictly earlier TxId
(`deps[t] ⊆ { t' : num_finality_txs ≤ t' < t }`). -/
def WFDeps (s : TxDependency) : Prop :=
  ∀ i, i < s.tx_dependency.length → ∀ d ∈ s.tx_dependency.getD i [],
    s.num_finality_txs ≤ d ∧ d < s.num_finality_txs + i

theorem weightedGroups_pool (s : TxDependency) (wg : WeightedGroup)
    (ng : Nat) (hwf : WFDeps s) (h : s.weightedGroups = some (wg, ng)) :
    wgKeysSorted wg ∧
    ((wgGroups wg).flatten).Nodup ∧
    (∀ x, x ∈ (wgGroups wg).flatten ↔
      (s.num_finality_txs ≤ x ∧
        x < s.num_finality_txs + s.tx_dependency.length)) := by
  unfold TxDependency.weightedGroups at h
  rw [Option.map_eq_some'] at h
  obtain ⟨sc, hsc, hval⟩ := h
  set deps := s.tx_dependency with hdeps
  set nft := s.num_finality_txs with hnft
  set len := deps.length with hlen
  set tw : List Nat := s.tx_weight.getD (List.replicate len RAW_TRANSFER_WEIGHT)
    with htw
  set wg0 : WeightedGroup :=
    (if sc.singles.isEmpty then [] else [(RAW_TRANSFER_WEIGHT, sc.singles)])
    with hwg0
  have hval' : floodFrom deps sc.revert tw nft len len sc.rel wg0 sc.num_group
      = (wg, ng) := hval
  have hInv := scanPhase_inv deps nft sc hsc
  have hwg0groups : wgGroups wg0 = sc.singles := by
    rw [hwg0]
    by_cases hse : sc.singles.isEmpty
    · rw [if_pos hse]
      rw [List.isEmpty_iff] at hse
      rw [hse]
      rfl
    · rw [if_neg hse]
      show sc.singles ++ [].flatten = sc.singles
      simp
  have hHigh : ∀ j, len ≤ j → sc.rel.getD j false = false := by
    intro j hj
    cases hb : sc.rel.getD j false
    · rfl
    · have := (hInv.rel_char j).mp hb
      omega
  obtain ⟨Gs, hGs1, hGs2, hGs3, hGs4⟩ :=
    floodFrom_spec deps sc.revert tw nft len len sc.rel wg0 sc.num_group
      hInv.rel_len hHigh
  rw [hval'] at hGs1
  have hkeys : wgKeysSorted wg := by
    have := floodFrom_keysSorted deps sc.revert tw nft len len sc.rel wg0
      sc.num_group (by
        rw [hwg0]
        by_cases hse : sc.singles.isEmpty
        · rw [if_pos hse]; exact List.sorted_nil
        · rw [if_neg hse]
          exact List.sorted_singleton _)
    rw [hval'] at this
    exact this
  rw [hwg0groups] at hGs1
  -- the combined pool of singles and flood groups
  have hdisj : ∀ x, x ∈ sc.singles.flatten → x ∉ Gs.flatten := by
    intro x hx1 hx2
    obtain ⟨i, hi1, hi2, hi3, rfl⟩ := (hInv.singles_mem x).mp hx1
    obtain ⟨i', hi'1, hi'2, hi'3⟩ := (hGs4 _).mp hx2
    have hii : i = i' := by omega
    subst hii
    have hchar := (hInv.rel_char i).mp hi'2
    rcases hchar.2 with hc | hc
    · exact absurd hi3.1 hc.2
    · obtain ⟨j, hj1, hj2, hj3⟩ := hc
      have hwfj := hwf j (by rw [← hlen]; exact hj2) _ hj3
      refine hi3.2 ⟨j, ?_, hj2, hj3⟩
      omega
  have hcover : ∀ i, i < len →
      (i + nft) ∈ sc.singles.flatten ∨ (i + nft) ∈ Gs.flatten := by
    intro i hi
    by_cases hsing : IsSingletonIdx deps nft i
    · exact Or.inl ((hInv.singles_mem _).mpr ⟨i, Nat.zero_le i, hi, hsing,
        rfl⟩)
    · refine Or.inr ((hGs4 _).mpr ⟨i, hi, ?_, rfl⟩)
      rw [hInv.rel_char i]
      refine ⟨hi, ?_⟩
      unfold IsSingletonIdx at hsing
      push_neg at hsing
      by_cases hde : deps.getD i [] = []
      · obtain ⟨j, hj1, hj2, hj3⟩ := hsing hde
        exact Or.inr ⟨j, by omega, hj2, hj3⟩
      · exact Or.inl ⟨Nat.zero_le i, hde⟩
  have hpoolmem : ∀ x, x ∈ sc.singles.flatten ++ Gs.flatten ↔
      (nft ≤ x ∧ x < nft + len) := by
    intro x
    rw [List.mem_append]
    constructor
    · rintro (hx | hx)
      · obtain ⟨i, _, hi2, _, rfl⟩ := (hInv.singles_mem x).mp hx
        omega
      · obtain ⟨i, hi1, _, rfl⟩ := (hGs4 _).mp hx
        omega
    · rintro ⟨h1, h2⟩
      have := hcover (x - nft) (by omega)
      rw [show x - nft + nft = x by omega] at this
      exact this
  have hpoolnd : (sc.singles.flatten ++ Gs.flatten).Nodup := by
    rw [List.nodup_append]
    exact ⟨hInv.singles_nodup, hGs3, hdisj⟩
  have hflatperm : List.Perm ((wgGroups wg).flatten)
      (sc.singles.flatten ++ Gs.flatten) := by
    rw [← List.flatten_append]
    exact List.Perm.flatten hGs1
  refine ⟨hkeys, hflatperm.symm.nodup hpoolnd, fun x => ?_⟩
  rw [hflatperm.mem_iff, hpoolmem x]

theorem exists_idx_mem (parts : List (List Nat)) (t : Nat) :
    (∃ i, i < parts.length ∧ t ∈ parts.getD i []) ↔ ∃ p ∈ parts, t ∈ p := by
  constructor
  · rintro ⟨i, hi, ht⟩
    exact ⟨parts.getD i [], getD_mem _ _ _ hi, ht⟩
  · rintro ⟨p, hp, ht⟩
    obtain ⟨i, hi, heq⟩ := List.mem_iff_getElem.mp hp
    refine ⟨i, hi, ?_⟩
    rw [List.getD_eq_getElem?_getD, List.getElem?_eq_getElem hi]
    show t ∈ parts[i]
    rw [heq]
    exact ht

theorem pairwise_disjoint_of_indexed (parts : List (List Nat))
    (h : ∀ i j, i < j → j < parts.length → ∀ t, t ∈ parts.getD i [] →
      t ∉ parts.getD j []) :
    List.Pairwise (fun p q => ∀ t, t ∈ p → t ∉ q) parts := by
  rw [List.pairwise_iff_getElem]
  intro i j hi hj hij t hti htj
  refine h i j hij hj t ?_ ?_
  · rw [List.getD_eq_getElem?_getD, List.getElem?_eq_getElem hi]
    exact hti
  · rw [List.getD_eq_getElem?_getD, List.getElem?_eq_getElem hj]
    exact htj

/-- C1: for every well-formed dependency graph and `partition_count ≥ 1`,
the partitions returned by `fetch_best_partitions` are pairwise disjoint,
their union is exactly the non-finalized tail
`[num_finality_txs, num_finality_txs + tail_length)`, and each partition's
TxIds are strictly ascending. -/
theorem fetch_partitions_disjoint_union_sorted (s : TxDependency) (pc : Nat)
    (res : List (List Nat)) (hpc : 0 < pc) (hwf : WFDeps s)
    (hres : s.fetch_best_partitions pc = some res) :
    List.Pairwise (fun p q => ∀ t, t ∈ p → t ∉ q) res ∧
    (∀ t, (∃ p ∈ res, t ∈ p) ↔
      (s.num_finality_txs ≤ t ∧
        t < s.num_finality_txs + s.tx_dependency.length)) ∧
    (∀ p ∈ res, List.Sorted (· < ·) p) := by
  unfold TxDependency.fetch_best_partitions at hres
  by_cases hai : s.all_independent
  · -- fast path: contiguous chunks
    rw [if_pos hai] at hres
    unfold TxDependency.all_independent_partitions at hres
    have hlen : 0 < s.tx_dependency.length := by
      by_contra hc
      rw [if_pos (by omega)] at hres
      cases hres
    rw [if_neg (by omega)] at hres
    have hres' := Option.some.inj hres
    subst hres'
    set n := s.tx_dependency.length with hn
    set np := min pc n with hnp
    set nft := s.num_finality_txs with hnft
    have hnppos : 0 < np := by omega
    have hshape : ∀ index : Nat,
        List.range' (n / np * index + min index (n % np) + nft)
          (n / np + if index < n % np then 1 else 0) =
        List.range' (chunkStart n np index + nft) (chunkSize n np index) :=
      fun index => rfl
    refine ⟨?_, ?_, ?_⟩
    · rw [List.pairwise_iff_getElem]
      intro i j hi hj hij t hti htj
      rw [List.length_map, List.length_range] at hi hj
      rw [List.getElem_map, List.getElem_range] at hti htj
      rw [hshape i, List.mem_range'_1] at hti
      rw [hshape j, List.mem_range'_1] at htj
      have hle := chunkEnd_le_start n np i j hij
      unfold chunkSize at hti htj hle
      omega
    · intro t
      have hmem : (∃ p ∈ (List.range np).map (fun index =>
          List.range' (n / np * index + min index (n % np) + nft)
            (n / np + if index < n % np then 1 else 0)), t ∈ p) ↔
          t ∈ List.range' nft n := by
        rw [← ranges_flatten nft n np hnppos]
        constructor
        · rintro ⟨p, hp, ht⟩
          rw [List.mem_flatten]
          obtain ⟨i, hi, rfl⟩ := List.mem_map.mp hp
          exact ⟨_, List.mem_map.mpr ⟨i, hi, rfl⟩,
            (by rw [← hshape i]; exact ht)⟩
        · intro ht
          rw [List.mem_flatten] at ht
          obtain ⟨p, hp, ht⟩ := ht
          obtain ⟨i, hi, rfl⟩ := List.mem_map.mp hp
          exact ⟨_, List.mem_map.mpr ⟨i, hi, rfl⟩,
            (by rw [hshape i]; exact ht)⟩
      rw [hmem, List.mem_range'_1]
    · intro p hp
      obtain ⟨i, _, rfl⟩ := List.mem_map.mp hp
      have := List.pairwise_lt_range'
        (n / np * i + min i (n % np) + nft)
        (n / np + if i < n % np then 1 else 0)
      exact this
  · -- general path
    rw [if_neg hai] at hres
    by_cases hzero : s.num_finality_txs + s.tx_dependency.length = 0
    · rw [if_pos hzero] at hres
      cases hres
    rw [if_neg hzero] at hres
    rw [Option.map_eq_some'] at hres
    obtain ⟨⟨wg, ng⟩, hwg, hval⟩ := hres
    have hval' : (if min pc ng = 0 then [[]]
        else (distributeCore wg (min pc ng)).1.filter
          (fun p => ! p.isEmpty)) = res := hval
    obtain ⟨hkeys, hnd, hpool⟩ := weightedGroups_pool s wg ng hwf hwg
    by_cases hnp0 : min pc ng = 0
    · rw [if_pos hnp0] at hval'
      subst hval'
      have hng0 : ng = 0 := by omega
      have hlen0 : s.tx_dependency.length = 0 := by
        by_contra hc
        have := weightedGroups_ng_pos s wg ng (by omega) hwg
        omega
      refine ⟨?_, ?_, ?_⟩
      · exact List.pairwise_singleton _ _
      · intro t
        constructor
        · rintro ⟨p, hp, ht⟩
          rw [List.mem_singleton] at hp
          subst hp
          cases ht
        · rintro ⟨h1, h2⟩
          omega
      · intro p hp
        rw [List.mem_singleton] at hp
        subst hp
        exact List.sorted_nil
    · rw [if_neg hnp0] at hval'
      subst hval'
      obtain ⟨hC1, hC2, hC3, hC4⟩ :=
        distributeCore_spec wg (min pc ng) (by omega) hkeys hnd
      refine ⟨?_, ?_, ?_⟩
      · refine List.Pairwise.sublist (List.filter_sublist _) ?_
        refine pairwise_disjoint_of_indexed _ ?_
        intro i j hij hj t hti htj
        rw [hC1] at hj
        exact hC3 i j hij hj t hti htj
      · intro t
        have hstep : (∃ p ∈ (distributeCore wg (min pc ng)).1.filter
            (fun p => ! p.isEmpty), t ∈ p) ↔
            ∃ p ∈ (distributeCore wg (min pc ng)).1, t ∈ p := by
          constructor
          · rintro ⟨p, hp, ht⟩
            exact ⟨p, (List.mem_filter.mp hp).1, ht⟩
          · rintro ⟨p, hp, ht⟩
            refine ⟨p, List.mem_filter.mpr ⟨hp, ?_⟩, ht⟩
            cases p with
            | nil => cases ht
            | cons a as => rfl
        rw [hstep, ← exists_idx_mem, hC1, hC4 t, hpool t]
      · intro p hp
        exact hC2 p (List.mem_filter.mp hp).1

/-- C1 (witness): general path at five transactions with edges `1 → 0` and
`3 → 2`, two requested partitions. -/
theorem fetch_partitions_disjoint_union_sorted_witness :
    List.Pairwise (fun p q => ∀ t, t ∈ p → t ∉ q)
      [[0, 1, 4], [2, 3]] ∧
    (∀ t, (∃ p ∈ [[0, 1, 4], [2, 3]], t ∈ p) ↔
      ((⟨[[], [0], [], [2], []], 0, none, none, false⟩ :
          TxDependency).num_finality_txs ≤ t ∧
        t < (⟨[[], [0], [], [2], []], 0, none, none, false⟩ :
          TxDependency).num_finality_txs +
          (⟨[[], [0], [], [2], []], 0, none, none, false⟩ :
            TxDependency).tx_dependency.length)) ∧
    (∀ p ∈ [[0, 1, 4], [2, 3]], List.Sorted (· < ·) p) :=
  fetch_partitions_disjoint_union_sorted
    ⟨[[], [0], [], [2], []], 0, none, none, false⟩ 2 [[0, 1, 4], [2, 3]]
    (by decide) (by unfold WFDeps; decide) (by decide)

/-! ## Min-weight-first distribution (C5) -/

/-- The order `Reverse<(usize, usize)>` pops by: lexicographic on
`(weight, index)`. -/
def pairLe (a b : Nat × Nat) : Prop :=
  a.1 < b.1 ∨ (a.1 = b.1 ∧ a.2 ≤ b.2)

theorem heapPush_perm (x : Nat × Nat) (l : List (Nat × Nat)) :
    List.Perm (heapPush x l) (x :: l) := by
  induction l with
  | nil => exact List.Perm.refl _
  | cons y ys ih =>
    rw [heapPush]
    split
    · exact List.Perm.refl _
    · exact List.Perm.trans (List.Perm.cons y ih) (List.Perm.swap x y ys)

theorem heapPush_sorted (x : Nat × Nat) (l : List (Nat × Nat))
    (h : List.Sorted pairLe l) : List.Sorted pairLe (heapPush x l) := by
  induction l with
  | nil => simp [heapPush, List.sorted_singleton]
  | cons y ys ih =>
    rw [List.sorted_cons] at h
    rw [heapPush]
    split
    · next hc =>
      have hc' : pairLe x y := hc
      rw [List.sorted_cons]
      refine ⟨?_, List.sorted_cons.mpr h⟩
      intro b hb
      rcases List.mem_cons.mp hb with rfl | hb'
      · exact hc'
      · have hyb := h.1 b hb'
        unfold pairLe at hc' hyb ⊢
        omega
    · next hc =>
      have hc' : ¬ pairLe x y := hc
      rw [List.sorted_cons]
      refine ⟨?_, ih h.2⟩
      intro b hb
      rcases (heapPush_mem x b ys).mp hb with rfl | hb'
      · unfold pairLe at hc' ⊢
        omega
      · exact h.1 b hb'

theorem set_perm_cons_eraseIdx {α : Type} (l : List α) :
    ∀ (i : Nat) (x : α), i < l.length →
    List.Perm (l.set i x) (x :: l.eraseIdx i) := by
  induction l with
  | nil => intro i x h; simp at h
  | cons a as ih =>
    intro i x h
    cases i with
    | zero => exact List.Perm.refl _
    | succ i =>
      rw [List.set_cons_succ, List.eraseIdx_cons_succ]
      refine List.Perm.trans (List.Perm.cons a (ih i x (by simpa using h))) ?_
      exact List.Perm.swap x a _

theorem perm_getD_cons_eraseIdx {α : Type} (l : List α) :
    ∀ (i : Nat) (d : α), i < l.length →
    List.Perm l (l.getD i d :: l.eraseIdx i) := by
  induction l with
  | nil => intro i d h; simp at h
  | cons a as ih =>
    intro i d h
    cases i with
    | zero => exact List.Perm.refl _
    | succ i =>
      rw [List.eraseIdx_cons_succ]
      show List.Perm (a :: as) ((as.getD i d) :: a :: as.eraseIdx i)
      refine List.Perm.trans (List.Perm.cons a (ih i d (by simpa using h))) ?_
      exact List.Perm.swap _ a _

/-- The heap's contents as a function of the accumulated weight vector. -/
def heapEnum (ws : List Nat) : List (Nat × Nat) :=
  (List.range ws.length).map (fun i => (ws.getD i 0, i))

theorem heapEnum_getD (ws : List Nat) (i : Nat) (hi : i < ws.length) :
    (heapEnum ws).getD i (0, 0) = (ws.getD i 0, i) := by
  unfold heapEnum
  rw [getD_map_range _ _ _ _ hi]

theorem heapEnum_length (ws : List Nat) :
    (heapEnum ws).length = ws.length := by
  unfold heapEnum
  rw [List.length_map, List.length_range]

theorem heapEnum_getElem (ws : List Nat) (j : Nat)
    (hj : j < (heapEnum ws).length) :
    (heapEnum ws)[j] = (ws.getD j 0, j) := by
  unfold heapEnum at hj ⊢
  rw [List.getElem_map, List.getElem_range]

theorem heapEnum_set (ws : List Nat) (i : Nat) (v : Nat)
    (hi : i < ws.length) :
    heapEnum (ws.set i v) = (heapEnum ws).set i (v, i) := by
  refine List.ext_getElem ?_ ?_
  · rw [heapEnum_length, List.length_set, List.length_set, heapEnum_length]
  · intro j h1 h2
    have h1' : j < ws.length := by
      rw [heapEnum_length, List.length_set] at h1
      exact h1
    rw [heapEnum_getElem (ws.set i v) j h1]
    by_cases hij : j = i
    · subst hij
      rw [List.getElem_set_self h2, getD_set_self _ _ _ _ hi]
    · rw [List.getElem_set_ne (fun h => hij h.symm) h2]
      rw [heapEnum_getElem ws j (by rw [heapEnum_length]; exact h1')]
      rw [getD_set_ne _ _ _ _ _ (fun h => hij h.symm)]

/-- The heap loop implements the min-weight-first policy: processing the job
list from a heap holding exactly the weight vector assigns every job to a
currently-minimal-weight partition. -/
theorem distJobs_minFirst (np : Nat) (hnp : 0 < np) :
    ∀ (jobs : List (Nat × List Nat)) (parts : List (List Nat))
      (heap : List (Nat × Nat)) (ws : List Nat),
    ws.length = np →
    List.Perm heap (heapEnum ws) →
    List.Sorted pairLe heap →
    MinFirstSpec np ws parts jobs
      (jobs.foldl (fun st j => distStep j.1 st j.2) (parts, heap)).1 := by
  intro jobs
  induction jobs with
  | nil =>
    intro parts heap ws hlen hperm hsorted
    exact MinFirstSpec.nil ws parts
  | cons job jobs ih =>
    intro parts heap ws hlen hperm hsorted
    obtain ⟨w, g⟩ := job
    cases hheap : heap with
    | nil =>
      exfalso
      rw [hheap] at hperm
      have : heapEnum ws = [] := (List.Perm.nil_eq hperm).symm
      have hl : (heapEnum ws).length = np := by
        unfold heapEnum
        rw [List.length_map, List.length_range, hlen]
      rw [this] at hl
      simp at hl
      omega
    | cons hd hrest =>
      obtain ⟨hw, hi⟩ := hd
      rw [hheap] at hperm hsorted
      have hmemenum : (hw, hi) ∈ heapEnum ws :=
        hperm.mem_iff.mp (List.mem_cons_self _ _)
      have hhi : hi < np ∧ hw = ws.getD hi 0 := by
        unfold heapEnum at hmemenum
        rw [List.mem_map] at hmemenum
        obtain ⟨i, hi1, heq⟩ := hmemenum
        rw [List.mem_range, hlen] at hi1
        cases heq
        exact ⟨hi1, rfl⟩
      have hmin : ∀ j, j < np → ws.getD hi 0 ≤ ws.getD j 0 := by
        intro j hj
        have hjm : (ws.getD j 0, j) ∈ heapEnum ws := by
          unfold heapEnum
          exact List.mem_map.mpr ⟨j, List.mem_range.mpr (by omega), rfl⟩
        have : (ws.getD j 0, j) ∈ (hw, hi) :: hrest := hperm.symm.mem_iff.mp hjm
        rcases List.mem_cons.mp this with heq | hmem
        · cases heq
          omega
        · have := List.rel_of_sorted_cons hsorted _ hmem
          unfold pairLe at this
          omega
      rw [List.foldl_cons]
      rw [show distStep ((w, g) : Nat × List Nat).1 (parts, (hw, hi) :: hrest)
        ((w, g) : Nat × List Nat).2 =
        (parts.set hi (sinsertAll g (parts.getD hi [])),
          heapPush (hw + w, hi) hrest) from rfl]
      refine MinFirstSpec.step ws parts w g jobs _ hi hhi.1 hmin ?_
      have hwsset : ws.getD hi 0 + w = hw + w := by rw [hhi.2]
      rw [hwsset]
      refine ih _ _ _ (by rw [List.length_set]; exact hlen) ?_ ?_
      · -- heapPush (hw + w, hi) hrest ~ heapEnum (ws.set hi (hw + w))
        have hwslen : hi < ws.length := by omega
        have henumlen : hi < (heapEnum ws).length := by
          unfold heapEnum
          rw [List.length_map, List.length_range]
          exact hwslen
        have hgetD : (heapEnum ws).getD hi (0, 0) = (hw, hi) := by
          rw [heapEnum_getD ws hi hwslen, hhi.2]
        have h1 : List.Perm (heapEnum (ws.set hi (hw + w)))
            ((hw + w, hi) :: (heapEnum ws).eraseIdx hi) := by
          rw [heapEnum_set ws hi (hw + w) hwslen]
          exact set_perm_cons_eraseIdx _ hi _ henumlen
        have h2 : List.Perm (heapEnum ws)
            ((hw, hi) :: (heapEnum ws).eraseIdx hi) := by
          have := perm_getD_cons_eraseIdx (heapEnum ws) hi (0, 0) henumlen
          rw [hgetD] at this
          exact this
        have h3 : List.Perm ((hw, hi) :: hrest)
            ((hw, hi) :: (heapEnum ws).eraseIdx hi) :=
          List.Perm.trans hperm h2
        have h4 : List.Perm hrest ((heapEnum ws).eraseIdx hi) :=
          List.Perm.cons_inv h3
        refine List.Perm.trans (heapPush_perm _ _) ?_
        exact List.Perm.trans (List.Perm.cons _ h4) h1.symm
      · exact heapPush_sorted _ _ (List.sorted_cons.mp hsorted).2

theorem weightedGroups_keysSorted (s : TxDependency) (wg : WeightedGroup)
    (ng : Nat) (h : s.weightedGroups = some (wg, ng)) : wgKeysSorted wg := by
  unfold TxDependency.weightedGroups at h
  rw [Option.map_eq_some'] at h
  obtain ⟨sc, hsc, hval⟩ := h
  have hval' : floodFrom s.tx_dependency sc.revert
      (s.tx_weight.getD (List.replicate s.tx_dependency.length
        RAW_TRANSFER_WEIGHT))
      s.num_finality_txs s.tx_dependency.length s.tx_dependency.length sc.rel
      (if sc.singles.isEmpty then [] else [(RAW_TRANSFER_WEIGHT, sc.singles)])
      sc.num_group = (wg, ng) := hval
  have hs := floodFrom_keysSorted s.tx_dependency sc.revert
    (s.tx_weight.getD (List.replicate s.tx_dependency.length
      RAW_TRANSFER_WEIGHT))
    s.num_finality_txs s.tx_dependency.length s.tx_dependency.length sc.rel
    (if sc.singles.isEmpty then [] else [(RAW_TRANSFER_WEIGHT, sc.singles)])
    sc.num_group
    (by
      by_cases hse : sc.singles.isEmpty
      · rw [if_pos hse]; exact List.sorted_nil
      · rw [if_neg hse]; exact List.sorted_singleton _)
  rw [hval'] at hs
  exact hs

theorem bucketJobs_map_fst (bs : List (Nat × List (List Nat))) :
    (bucketJobs bs).map Prod.fst =
      (bs.map (fun b => b.2.map (fun _ => b.1))).flatten := by
  induction bs with
  | nil => rfl
  | cons b rest ih =>
    show ((b.2.map (fun g => (b.1, g)) ++ bucketJobs rest).map Prod.fst) = _
    rw [List.map_append, ih, List.map_map]
    rfl

theorem foldl_heapPush_perm (f : Nat → Nat × Nat) (l : List Nat) :
    ∀ (init : List (Nat × Nat)),
    List.Perm (l.foldl (fun h i => heapPush (f i) h) init) (l.map f ++ init) := by
  induction l with
  | nil => intro init; exact List.Perm.refl _
  | cons x xs ih =>
    intro init
    rw [List.foldl_cons]
    refine List.Perm.trans (ih (heapPush (f x) init)) ?_
    refine List.Perm.trans
      (List.Perm.append_left (xs.map f) (heapPush_perm (f x) init)) ?_
    show List.Perm (List.map f xs ++ f x :: init) (f x :: (List.map f xs ++ init))
    exact List.perm_middle

theorem foldl_heapPush_sorted (f : Nat → Nat × Nat) (l : List Nat) :
    ∀ (init : List (Nat × Nat)), List.Sorted pairLe init →
    List.Sorted pairLe (l.foldl (fun h i => heapPush (f i) h) init) := by
  induction l with
  | nil => intro init h; exact h
  | cons x xs ih =>
    intro init h
    rw [List.foldl_cons]
    exact ih _ (heapPush_sorted _ _ h)

/-- C5: in the general path, the non-`RAW_TRANSFER_WEIGHT` buckets are
processed in descending tagged-weight order, and the heap loop adds each of
their groups to a partition whose accumulated weight is minimal at the moment
of assignment, increasing that partition's weight by the group's tagged
weight (after the weight-`RAW_TRANSFER_WEIGHT` groups were pre-distributed
into the initial partitions and weights). -/
theorem distribution_min_weight_first (s : TxDependency) (pc : Nat)
    (wg : WeightedGroup) (ng : Nat) (hwg : s.weightedGroups = some (wg, ng))
    (hnp : 0 < min pc ng) :
    List.Sorted (· ≥ ·)
      ((bucketJobs ((wg.filter
        (fun b => b.1 != RAW_TRANSFER_WEIGHT)).reverse)).map Prod.fst) ∧
    MinFirstSpec (min pc ng)
      ((List.range (min pc ng)).map (fun i =>
        ((distributeSingles
          (((wg.find? (fun b => b.1 == RAW_TRANSFER_WEIGHT)).map
            Prod.snd).getD []) (min pc ng)).getD i []).length *
          RAW_TRANSFER_WEIGHT))
      (distributeSingles
        (((wg.find? (fun b => b.1 == RAW_TRANSFER_WEIGHT)).map
          Prod.snd).getD []) (min pc ng))
      (bucketJobs ((wg.filter (fun b => b.1 != RAW_TRANSFER_WEIGHT)).reverse))
      (distributeCore wg (min pc ng)).1 := by
  have hkeys : wgKeysSorted wg := weightedGroups_keysSorted s wg ng hwg
  set np := min pc ng with hnpdef
  set singlesB : List (List Nat) :=
    ((wg.find? (fun b => b.1 == RAW_TRANSFER_WEIGHT)).map Prod.snd).getD []
    with hsB
  set rest : WeightedGroup :=
    wg.filter (fun b => b.1 != RAW_TRANSFER_WEIGHT) with hrestdef
  set parts0 : List (List Nat) := distributeSingles singlesB np with hp0
  set ws0 : List Nat := (List.range np).map (fun i =>
    (parts0.getD i []).length * RAW_TRANSFER_WEIGHT) with hws0
  set heap0 : List (Nat × Nat) := (List.range np).foldl
    (fun h i => heapPush ((parts0.getD i []).length * RAW_TRANSFER_WEIGHT, i)
      h) [] with hh0
  constructor
  · -- descending job weights
    have hrestsorted : ((rest.map Prod.fst)).Sorted (· < ·) := by
      have hsub : (rest.map Prod.fst).Sublist (wg.map Prod.fst) :=
        List.Sublist.map Prod.fst (List.filter_sublist wg)
      exact List.Pairwise.sublist hsub hkeys
    have hrev : (rest.reverse.map Prod.fst).Pairwise (fun a b => b < a) := by
      rw [List.map_reverse]
      exact List.pairwise_reverse.mpr hrestsorted
    have hbs : (rest.reverse).Pairwise (fun b1 b2 => b2.1 < b1.1) :=
      List.pairwise_map.mp hrev
    rw [bucketJobs_map_fst]
    show List.Pairwise (fun a b => a ≥ b)
      ((rest.reverse.map (fun b => b.2.map (fun _ => b.1))).flatten)
    rw [List.pairwise_flatten]
    refine ⟨?_, ?_⟩
    · intro l hl
      rw [List.mem_map] at hl
      obtain ⟨b, _, rfl⟩ := hl
      rw [List.pairwise_map]
      rw [List.pairwise_iff_getElem]
      intro i j hi hj hij
      exact Nat.le_refl _
    · rw [List.pairwise_map]
      refine List.Pairwise.imp ?_ hbs
      intro b1 b2 hb x hx y hy
      rw [List.mem_map] at hx hy
      obtain ⟨_, _, rfl⟩ := hx
      obtain ⟨_, _, rfl⟩ := hy
      omega
  · -- min-weight-first insertion
    have hcore : (distributeCore wg np).1 =
        ((bucketJobs rest.reverse).foldl (fun st j => distStep j.1 st j.2)
          (parts0, heap0)).1 := by
      have h1 : distributeCore wg np =
          (bucketJobs rest.reverse).foldl (fun st j => distStep j.1 st j.2)
            (parts0, heap0) := by
        show rest.reverse.foldl
          (fun st b => b.2.foldl (fun st g => distStep b.1 st g) st)
          (parts0, heap0) = _
        exact distFold_eq_jobs _ _
      rw [h1]
    rw [hcore]
    refine distJobs_minFirst np hnp (bucketJobs rest.reverse) parts0 heap0
      ws0 ?_ ?_ ?_
    · rw [hws0, List.length_map, List.length_range]
    · rw [hh0]
      refine List.Perm.trans (foldl_heapPush_perm
        (fun i => ((parts0.getD i []).length * RAW_TRANSFER_WEIGHT, i))
        (List.range np) []) ?_
      rw [List.append_nil]
      have hlen : ws0.length = np := by
        rw [hws0, List.length_map, List.length_range]
      have : heapEnum ws0 = (List.range np).map
          (fun i => ((parts0.getD i []).length * RAW_TRANSFER_WEIGHT, i)) := by
        unfold heapEnum
        rw [hlen]
        refine List.map_congr_left ?_
        intro i hi
        rw [List.mem_range] at hi
        rw [hws0, getD_map_range _ _ _ _ hi]
      rw [this]
    · rw [hh0]
      exact foldl_heapPush_sorted _ _ [] List.sorted_nil

theorem distribution_min_weight_first_witness :
    List.Sorted (· ≥ ·) ((bucketJobs ((([(2, [[1, 0]])] : WeightedGroup).filter
      (fun b => b.1 != RAW_TRANSFER_WEIGHT)).reverse)).map Prod.fst) ∧
    MinFirstSpec (min 1 1)
      ((List.range (min 1 1)).map (fun i =>
        ((distributeSingles
          (((([(2, [[1, 0]])] : WeightedGroup).find?
            (fun b => b.1 == RAW_TRANSFER_WEIGHT)).map Prod.snd).getD [])
          (min 1 1)).getD i []).length * RAW_TRANSFER_WEIGHT))
      (distributeSingles
        (((([(2, [[1, 0]])] : WeightedGroup).find?
          (fun b => b.1 == RAW_TRANSFER_WEIGHT)).map Prod.snd).getD [])
        (min 1 1))
      (bucketJobs ((([(2, [[1, 0]])] : WeightedGroup).filter
        (fun b => b.1 != RAW_TRANSFER_WEIGHT)).reverse))
      (distributeCore [(2, [[1, 0]])] (min 1 1)).1 :=
  distribution_min_weight_first ⟨[[], [0]], 0, none, none, false⟩ 1
    [(2, [[1, 0]])] 1 (by decide) (by decide)
